import Mathlib

/-!
Verification development for the kiwi-shader annotation and hot-reload
pipeline.  The C++ sources under `src/source/src/utility/` are shallowly
embedded as executable Lean definitions:

* `AnnotationLexer.cpp`  → `Kiwi.tokenize` and its token readers;
* `AnnotationParser.cpp` → `Kiwi.parseParamsGo` / `Kiwi.parseTokens` /
  `Kiwi.parseStr` together with the typed getter helpers;
* `UniformParser.cpp`    → `Kiwi.Uniforms.*` (descriptor structures, the
  directive dispatch, and `toDisplayName`);
* `ShaderPreprocessor.cpp` → `Kiwi.Pre.*` (recursive include expansion with
  the visited-path set and the ordered dependency list);
* `ShaderLayer.cpp`      → `Kiwi.Layer.*` (load / merge / hot-reload state
  machine over an abstract world of files, timestamps and a compiler oracle).

Modelling conventions: C++ `double`/`float` values are exact rationals
(no floating-point rounding; hex floats and inf/nan spellings of `stod`
are out of scope), file paths are abstract strings taken to be already
absolute (path normalisation and directory-relative resolution collapse to
lookup in the modelled file system), and external calls (GL compiler,
uniform-location query, regex-based source scanning, logging) are oracles
carried by a `World` record.  Fallible C++ code (`throw` / error members)
is modelled with `Except` / explicit error strings, and the two iterative
parser loops carry an explicit fuel that is large enough for every token
stream produced by the lexer.
-/

set_option maxRecDepth 100000

namespace Kiwi

/-! ## Annotation lexer (`AnnotationLexer.cpp`) -/

/-- Token kinds of the annotation language, mirroring `enum class TokenType`. -/
inductive TokenType where
  | identifier
  | number
  | string
  | equals
  | comma
  | parenOpen
  | parenClose
  | bracketOpen
  | bracketClose
  | hash
  | endOfInput
  | invalid
deriving DecidableEq, Repr

/-- A lexed token: kind, spelled value and source position (`struct Token`). -/
structure Token where
  type : TokenType
  value : String
  position : Nat
deriving DecidableEq, Repr

instance : Inhabited Token := ⟨⟨.endOfInput, "", 0⟩⟩

/-- Character class of `AnnotationLexer::isWhitespace`. -/
def isWhitespaceC (c : Char) : Bool :=
  c = ' ' || c = '\t' || c = '\r' || c = '\n'

/-- Character class of `AnnotationLexer::isDigit`. -/
def isDigitC (c : Char) : Bool :=
  decide ('0' ≤ c) && decide (c ≤ '9')

/-- Character class of `AnnotationLexer::isAlpha` (letters and underscore). -/
def isAlphaC (c : Char) : Bool :=
  (decide ('a' ≤ c) && decide (c ≤ 'z')) || (decide ('A' ≤ c) && decide (c ≤ 'Z')) || c = '_'

/-- Character class of `AnnotationLexer::isAlphaNumeric`. -/
def isAlphaNumericC (c : Char) : Bool :=
  isAlphaC c || isDigitC c

/-- Reader for `AnnotationLexer::readNumber`: optional `-` sign, digits,
optional fraction, optional scientific suffix.  Returns the spelled value and
the unconsumed characters. -/
def readNumber (l : List Char) : List Char × List Char :=
  let (sign, l1) :=
    match l with
    | '-' :: rest => (['-'], rest)
    | _ => (([] : List Char), l)
  let intPart := l1.takeWhile isDigitC
  let l2 := l1.dropWhile isDigitC
  let (fracPart, l3) :=
    match l2 with
    | '.' :: rest => ('.' :: rest.takeWhile isDigitC, rest.dropWhile isDigitC)
    | _ => (([] : List Char), l2)
  let (expPart, l4) :=
    match l3 with
    | e :: rest =>
      if e = 'e' ∨ e = 'E' then
        let (sgn2, r2) :=
          match rest with
          | c :: rr => if c = '+' ∨ c = '-' then ([c], rr) else (([] : List Char), c :: rr)
          | [] => (([] : List Char), ([] : List Char))
        (e :: (sgn2 ++ r2.takeWhile isDigitC), r2.dropWhile isDigitC)
      else (([] : List Char), l3)
    | [] => (([] : List Char), l3)
  (sign ++ intPart ++ fracPart ++ expPart, l4)

/-- Reader for `AnnotationLexer::readIdentifier`. -/
def readIdentifier (l : List Char) : List Char × List Char :=
  (l.takeWhile isAlphaNumericC, l.dropWhile isAlphaNumericC)

/-- Escape translation inside string literals: `\n` and `\t` become control
characters, every other escaped character is passed through literally (which
already covers `\\`, `\"` and `\'`). -/
def escChar (e : Char) : Char :=
  match e with
  | 'n' => '\n'
  | 't' => '\t'
  | _ => e

/-- Body reader of `AnnotationLexer::readString`; the opening quote has
already been consumed.  Returns the unescaped value characters and the
unconsumed input (the closing quote, when present, is skipped). -/
def readStrGo (quote : Char) : List Char → List Char × List Char
  | [] => ([], [])
  | c :: rest =>
    if c = quote then ([], rest)
    else if c = '\\' then
      match rest with
      | e :: rr =>
        let (v, r) := readStrGo quote rr
        (escChar e :: v, r)
      | [] => (['\\'], [])
    else
      let (v, r) := readStrGo quote rest
      (c :: v, r)

/-- Main loop of `AnnotationLexer::tokenize`.  The C++ loop terminates
because every iteration consumes at least one character; the fuel mirrors
that bound and `tokenize` supplies `input.length + 1`, which is never
exhausted. -/
def tokenizeGo : Nat → List Char → Nat → List Token
  | 0, _, pos => [⟨.endOfInput, "", pos⟩]
  | _ + 1, [], pos => [⟨.endOfInput, "", pos⟩]
  | fuel + 1, c :: rest, pos =>
    if isWhitespaceC c then tokenizeGo fuel rest (pos + 1)
    else if c = '=' then ⟨.equals, "=", pos⟩ :: tokenizeGo fuel rest (pos + 1)
    else if c = ',' then ⟨.comma, ",", pos⟩ :: tokenizeGo fuel rest (pos + 1)
    else if c = '(' then ⟨.parenOpen, "(", pos⟩ :: tokenizeGo fuel rest (pos + 1)
    else if c = ')' then ⟨.parenClose, ")", pos⟩ :: tokenizeGo fuel rest (pos + 1)
    else if c = '[' then ⟨.bracketOpen, "[", pos⟩ :: tokenizeGo fuel rest (pos + 1)
    else if c = ']' then ⟨.bracketClose, "]", pos⟩ :: tokenizeGo fuel rest (pos + 1)
    else if c = '#' then ⟨.hash, "#", pos⟩ :: tokenizeGo fuel rest (pos + 1)
    else if isDigitC c ∨ (c = '-' ∧ (rest.head?.map isDigitC).getD false) then
      let (v, r) := readNumber (c :: rest)
      ⟨.number, String.mk v, pos⟩ :: tokenizeGo fuel r (pos + v.length)
    else if isAlphaC c then
      let (v, r) := readIdentifier (c :: rest)
      ⟨.identifier, String.mk v, pos⟩ :: tokenizeGo fuel r (pos + v.length)
    else if c = '"' ∨ c = '\'' then
      let (v, r) := readStrGo c rest
      let consumed := (c :: rest).length - r.length
      ⟨.string, String.mk v, pos⟩ :: tokenizeGo fuel r (pos + consumed)
    else ⟨.invalid, String.mk [c], pos⟩ :: tokenizeGo fuel rest (pos + 1)

/-- Model of `AnnotationLexer::tokenize`: whitespace skipped, a trailing
`EndOfInput` token always appended by the base case of `tokenizeGo`. -/
def tokenize (input : String) : List Token :=
  tokenizeGo (input.length + 1) input.toList 0

/-! ## Annotation parser (`AnnotationParser.cpp`) -/

/-- Parsed annotation value (`ParamValue` variant): number, string, number
array or string array.  Numbers are exact rationals. -/
inductive ParamValue where
  | num (q : ℚ)
  | str (s : String)
  | numArr (l : List ℚ)
  | strArr (l : List String)
deriving DecidableEq, Repr

/-- Parameter map (`ParamMap`, an `unordered_map`): association list with
unique keys maintained by `insertParam`. -/
abbrev ParamMap := List (String × ParamValue)

/-- Map update `params[key] = value`: replace an existing binding, else
append. -/
def insertParam (m : ParamMap) (k : String) (v : ParamValue) : ParamMap :=
  match m with
  | [] => [(k, v)]
  | (k', v') :: rest => if k' = k then (k, v) :: rest else (k', v') :: insertParam rest k v

/-- Map lookup `params.find(key)`. -/
def lookupParam (m : ParamMap) (k : String) : Option ParamValue :=
  match m with
  | [] => none
  | (k', v') :: rest => if k' = k then some v' else lookupParam rest k

/-- Character class of C `isspace`, as relevant to `std::stod` input. -/
def isSpaceC (c : Char) : Bool :=
  c = ' ' || c = '\t' || c = '\n' || c = '\r' || c = '\x0b' || c = '\x0c'

/-- Value of a digit string read in base ten. -/
def digitsToNat (l : List Char) : Nat :=
  l.foldl (fun n c => 10 * n + (c.toNat - '0'.toNat)) 0

/-- Model of `std::stod` on the decimal forms the lexer and parser feed it:
skip spaces, optional sign, digits with optional fraction and exponent;
`none` models the `std::invalid_argument` throw when no digit is present.
The value `sign · ipfp · 10^(exponent − fractionLength)` is assembled as one
exact rational through `mkRat`.  Hexadecimal floats and inf/nan spellings
are out of scope. -/
def stodQ (s : String) : Option ℚ :=
  let l := s.toList.dropWhile isSpaceC
  let (sgn, l1) :=
    match l with
    | '+' :: r => ((1 : ℤ), r)
    | '-' :: r => ((-1 : ℤ), r)
    | _ => ((1 : ℤ), l)
  let ip := l1.takeWhile isDigitC
  let l2 := l1.dropWhile isDigitC
  let (fp, l3) :=
    match l2 with
    | '.' :: r => (r.takeWhile isDigitC, r.dropWhile isDigitC)
    | _ => (([] : List Char), l2)
  if ip = [] ∧ fp = [] then none
  else
    let mantNum : ℤ :=
      sgn * ((digitsToNat ip : ℤ) * 10 ^ fp.length + (digitsToNat fp : ℤ))
    let ex : ℤ :=
      match l3 with
      | e :: r =>
        if e = 'e' ∨ e = 'E' then
          let (esgn, r2) :=
            match r with
            | '+' :: rr => ((1 : ℤ), rr)
            | '-' :: rr => ((-1 : ℤ), rr)
            | _ => ((1 : ℤ), r)
          let ed := r2.takeWhile isDigitC
          if ed = [] then 0 else esgn * (digitsToNat ed : ℤ)
        else 0
      | [] => 0
    some
      (if 0 ≤ ex then mkRat (mantNum * 10 ^ ex.toNat) (10 ^ fp.length)
       else mkRat mantNum (10 ^ fp.length * 10 ^ (-ex).toNat))

/-- Truncation of a C++ `double` to `int` (`static_cast<int>`): rounds
toward zero, which on an exact rational is truncating division of the
numerator by the denominator. -/
def dToInt (q : ℚ) : ℤ :=
  q.num.tdiv q.den

/-- Model of `std::to_string(double)`: fixed six-digit decimal rendering of
the rational value, rounding to nearest (ties of the binary representation
are out of scope). -/
def doubleToString (q : ℚ) : String :=
  let n : ℤ := (2 * (q.num * 1000000) + q.den).fdiv (2 * q.den)
  let sgn := if n < 0 then "-" else ""
  let m := n.natAbs
  let ip := m / 1000000
  let fp := m % 1000000
  let fs := toString fp
  sgn ++ toString ip ++ "." ++ String.mk (List.replicate (6 - fs.length) '0') ++ fs

/-- Parser's default token, standing in for `tokens_.back()` of an empty
stream. -/
def defTok : Token := ⟨.endOfInput, "", 0⟩

/-- Model of `AnnotationParser::current`: the token at `pos`, clamped to the
last token when past the end. -/
def curTok (ts : List Token) (pos : Nat) : Token :=
  if pos < ts.length then ts.getD pos defTok else ts.getLastD defTok

/-- Model of `AnnotationParser::peek`. -/
def peekTok (ts : List Token) (pos offset : Nat) : Token :=
  curTok ts (pos + offset)

/-- Model of `AnnotationParser::advance`: increment `pos` unless already at
the end of the stream. -/
def advanceP (ts : List Token) (pos : Nat) : Nat :=
  if pos < ts.length then pos + 1 else pos

/-- Model of `AnnotationParser::parseHexColor`: consume `#`, then read the
hex digit token; a missing digit token yields white `[1,1,1]`.  The byte
extraction itself is `hexToRGBA` below. -/
def hexDigit (c : Char) : Option Nat :=
  if '0' ≤ c ∧ c ≤ '9' then some (c.toNat - '0'.toNat)
  else if 'a' ≤ c ∧ c ≤ 'f' then some (c.toNat - 'a'.toNat + 10)
  else if 'A' ≤ c ∧ c ≤ 'F' then some (c.toNat - 'A'.toNat + 10)
  else none

/-- Value of a two-hex-digit pair. -/
def hexPair (c1 c2 : Char) : Option Nat :=
  match hexDigit c1, hexDigit c2 with
  | some h, some l => some (16 * h + l)
  | _, _ => none

/-- Byte components of `AnnotationParser::parseHexColor`: `r,g,b,a` start as
`0,0,0,255`; a 6-digit string fills `r,g,b`, an 8-digit string also fills
`a`, any other length leaves the initial values (the C++ code only logs a
warning).  Mirroring `sscanf`, pairs are filled left to right and scanning
stops at the first invalid pair. -/
def hexToRGBA (hex : String) : List ℚ :=
  let cs := hex.toList
  let rgba : Nat × Nat × Nat × Nat :=
    if cs.length = 6 then
      match hexPair (cs.getD 0 ' ') (cs.getD 1 ' ') with
      | none => (0, 0, 0, 255)
      | some r =>
        match hexPair (cs.getD 2 ' ') (cs.getD 3 ' ') with
        | none => (r, 0, 0, 255)
        | some g =>
          match hexPair (cs.getD 4 ' ') (cs.getD 5 ' ') with
          | none => (r, g, 0, 255)
          | some b => (r, g, b, 255)
    else if cs.length = 8 then
      match hexPair (cs.getD 0 ' ') (cs.getD 1 ' ') with
      | none => (0, 0, 0, 255)
      | some r =>
        match hexPair (cs.getD 2 ' ') (cs.getD 3 ' ') with
        | none => (r, 0, 0, 255)
        | some g =>
          match hexPair (cs.getD 4 ' ') (cs.getD 5 ' ') with
          | none => (r, g, 0, 255)
          | some b =>
            match hexPair (cs.getD 6 ' ') (cs.getD 7 ' ') with
            | none => (r, g, b, 255)
            | some a => (r, g, b, a)
    else (0, 0, 0, 255)
  [mkRat rgba.1 255, mkRat rgba.2.1 255, mkRat rgba.2.2.1 255, mkRat rgba.2.2.2 255]

/-- Byte read from positions `i, i+1` of a hex string (zero when either
digit is invalid); used to state what `hexToRGBA` computes. -/
def hexByte (s : String) (i : Nat) : Nat :=
  (hexPair (s.toList.getD i ' ') (s.toList.getD (i + 1) ' ')).getD 0

/-- Hex-color branch of `parseValue`: `expect(Hash)` then the digit token.
Returns the parsed value and the new position, or the `expect` error. -/
def parseHexColorF (ts : List Token) (pos : Nat) : Except String (ParamValue × Nat) :=
  if (curTok ts pos).type = .hash then
    let pos1 := advanceP ts pos
    let t := curTok ts pos1
    if t.type ≠ .identifier ∧ t.type ≠ .number then
      .ok (.numArr [1, 1, 1], pos1)
    else
      .ok (.numArr (hexToRGBA t.value), advanceP ts pos1)
  else .error "Expected '#' for hex color"

/-- Loop body of `AnnotationParser::parseArray`: collect numbers and strings
until `]`, end of input, an unexpected token, or a missing comma.  The C++
`while` loop terminates because each iteration advances; the fuel mirrors
that bound and the entry point supplies enough for every lexed stream. -/
def parseArrayGo (ts : List Token) :
    Nat → Nat → List ℚ → List String → Bool →
    Except String (List ℚ × List String × Bool × Nat)
  | 0, _, _, _, _ => .error "parser loop limit exceeded"
  | fuel + 1, pos, numbers, strings, isNumeric =>
    let t := curTok ts pos
    if t.type = .endOfInput ∨ t.type = .bracketClose then
      .ok (numbers, strings, isNumeric, pos)
    else if t.type = .number then
      match stodQ t.value with
      | none => .error "stod: invalid argument"
      | some q =>
        let pos1 := advanceP ts pos
        if (curTok ts pos1).type = .comma then
          parseArrayGo ts fuel (advanceP ts pos1) (numbers ++ [q]) strings isNumeric
        else .ok (numbers ++ [q], strings, isNumeric, pos1)
    else if t.type = .string ∨ t.type = .identifier then
      let pos1 := advanceP ts pos
      if (curTok ts pos1).type = .comma then
        parseArrayGo ts fuel (advanceP ts pos1) numbers (strings ++ [t.value]) false
      else .ok (numbers, strings ++ [t.value], false, pos1)
    else .ok (numbers, strings, isNumeric, pos)

/-- Model of `AnnotationParser::parseArray`: optional `[`, element loop,
mandatory `]` when bracketed; numeric results win when any number was
collected on the numeric path, otherwise strings, otherwise an empty
numeric array. -/
def parseArrayF (ts : List Token) (fuel pos : Nat) : Except String (ParamValue × Nat) :=
  let (hasBrackets, pos1) :=
    if (curTok ts pos).type = .bracketOpen then (true, advanceP ts pos) else (false, pos)
  match parseArrayGo ts fuel pos1 [] [] true with
  | .error e => .error e
  | .ok (numbers, strings, isNumeric, pos2) =>
    let result : ParamValue :=
      if isNumeric ∧ numbers ≠ [] then .numArr numbers
      else if strings ≠ [] then .strArr strings
      else .numArr []
    if hasBrackets then
      if (curTok ts pos2).type = .bracketClose then .ok (result, advanceP ts pos2)
      else .error "Expected ']' after array"
    else .ok (result, pos2)

/-- Model of `AnnotationParser::parseValue`: hex color, string, number or
unbracketed number array (detected by peeking `number , number`),
identifier, bracketed array; any other token is skipped with an empty
string result. -/
def parseValueF (ts : List Token) (fuel pos : Nat) : Except String (ParamValue × Nat) :=
  let t := curTok ts pos
  if t.type = .hash then parseHexColorF ts pos
  else if t.type = .string then .ok (.str t.value, advanceP ts pos)
  else if t.type = .number then
    if (peekTok ts pos 1).type = .comma ∧ (peekTok ts pos 2).type = .number then
      parseArrayF ts fuel pos
    else
      match stodQ t.value with
      | none => .error "stod: invalid argument"
      | some q => .ok (.num q, advanceP ts pos)
  else if t.type = .identifier then .ok (.str t.value, advanceP ts pos)
  else if t.type = .bracketOpen then parseArrayF ts fuel pos
  else .ok (.str "", advanceP ts pos)

/-- Loop of `AnnotationParser::parseParams`: `IDENT = value` pairs separated
by commas; a non-identifier where a name is expected is skipped with a
warning, a missing `=` raises the parse error.  Fuel as in `parseArrayGo`. -/
def parseParamsGo (ts : List Token) : Nat → Nat → ParamMap → Except String (ParamMap × Nat)
  | 0, _, _ => .error "parser loop limit exceeded"
  | fuel + 1, pos, params =>
    let t := curTok ts pos
    if t.type = .endOfInput ∨ t.type = .parenClose then .ok (params, pos)
    else if t.type ≠ .identifier then
      parseParamsGo ts fuel (advanceP ts pos) params
    else
      let key := t.value
      let pos1 := advanceP ts pos
      if (curTok ts pos1).type = .equals then
        let pos2 := advanceP ts pos1
        match parseValueF ts fuel pos2 with
        | .error e => .error e
        | .ok (v, pos3) =>
          let params1 := insertParam params key v
          if (curTok ts pos3).type = .comma then
            parseParamsGo ts fuel (advanceP ts pos3) params1
          else .ok (params1, pos3)
      else .error "Expected '=' after parameter name"

/-- Fallible parser entry: `parseParams` over a token stream, with errors
surfaced as `Except` values (C++ `throw std::runtime_error`). -/
def parseParamsE (ts : List Token) : Except String ParamMap :=
  (parseParamsGo ts (ts.length + 1) 0 []).map (·.1)

/-- Model of `AnnotationParser::parse(tokens)`: the top-level entry catches
every parse error and degrades to an empty map. -/
def parseTokens (ts : List Token) : ParamMap :=
  match parseParamsE ts with
  | .ok m => m
  | .error _ => []

/-- Model of `AnnotationParser::parse(input)`: tokenize then parse. -/
def parseStr (input : String) : ParamMap :=
  parseTokens (tokenize input)

/-- Model of `AnnotationParser::getNumber`. -/
def getNumber (params : ParamMap) (key : String) (defaultVal : ℚ) : ℚ :=
  match lookupParam params key with
  | none => defaultVal
  | some (.num q) => q
  | some (.str s) =>
    match stodQ s with
    | some q => q
    | none => defaultVal
  | some _ => defaultVal

/-- Model of `AnnotationParser::getString`. -/
def getString (params : ParamMap) (key : String) (defaultVal : String) : String :=
  match lookupParam params key with
  | none => defaultVal
  | some (.str s) => s
  | some (.num q) => doubleToString q
  | some _ => defaultVal

/-- Model of `AnnotationParser::getNumberArray`. -/
def getNumberArray (params : ParamMap) (key : String) : List ℚ :=
  match lookupParam params key with
  | none => []
  | some (.numArr l) => l
  | some (.num q) => [q]
  | some _ => []

/-- Model of `AnnotationParser::getStringArray`. -/
def getStringArray (params : ParamMap) (key : String) : List String :=
  match lookupParam params key with
  | none => []
  | some (.strArr l) => l
  | some (.str s) => [s]
  | some _ => []

/-- Model of `AnnotationParser::getBool`: lower-case the string rendering
and recognise `true/1/yes` and `false/0/no`. -/
def getBool (params : ParamMap) (key : String) (defaultVal : Bool) : Bool :=
  let s := String.mk ((getString params key "").toList.map Char.toLower)
  if s = "true" ∨ s = "1" ∨ s = "yes" then true
  else if s = "false" ∨ s = "0" ∨ s = "no" then false
  else defaultVal

/-! ## Uniform descriptor model (`UniformTypes.h`, `UniformParser.cpp`) -/

namespace Uniforms

/-- Control kinds of `enum class ControlType`. -/
inductive ControlType where
  | slider
  | dragFloat
  | dragInt
  | colorPicker
  | checkbox
  | vec2
  | vec3
  | vec4
  | dropdown
  | none
deriving DecidableEq, Repr

/-- Largest finite `float`, `FLT_MAX`, as an exact rational. -/
def fltMax : ℚ := mkRat ((2 : ℤ) ^ 128 - 2 ^ 104) 1

/-- Model of `FloatUniform` with the `UniformBase` fields flattened in and
the C++ member initialisers as defaults. -/
structure FloatUniform where
  name : String := ""
  displayName : String := ""
  tooltip : String := ""
  group : String := ""
  controlType : ControlType := .slider
  location : ℤ := -1
  value : ℚ := 0
  defaultValue : ℚ := 0
  minValue : ℚ := 0
  maxValue : ℚ := 1
  step : ℚ := mkRat 1 100
deriving DecidableEq, Repr

/-- Model of `IntUniform`. -/
structure IntUniform where
  name : String := ""
  displayName : String := ""
  tooltip : String := ""
  group : String := ""
  controlType : ControlType := .slider
  location : ℤ := -1
  value : ℤ := 0
  defaultValue : ℤ := 0
  minValue : ℤ := 0
  maxValue : ℤ := 100
deriving DecidableEq, Repr

/-- Model of `BoolUniform`. -/
structure BoolUniform where
  name : String := ""
  displayName : String := ""
  tooltip : String := ""
  group : String := ""
  controlType : ControlType := .checkbox
  location : ℤ := -1
  value : Bool := false
  defaultValue : Bool := false
deriving DecidableEq, Repr

/-- Model of `Vec2Uniform`; `glm::vec2` becomes a pair of rationals. -/
structure Vec2Uniform where
  name : String := ""
  displayName : String := ""
  tooltip : String := ""
  group : String := ""
  controlType : ControlType := .vec2
  location : ℤ := -1
  value : ℚ × ℚ := (0, 0)
  defaultValue : ℚ × ℚ := (0, 0)
  minValue : ℚ := -fltMax
  maxValue : ℚ := fltMax
  step : ℚ := mkRat 1 100
deriving DecidableEq, Repr

/-- Model of `Vec3Uniform`. -/
structure Vec3Uniform where
  name : String := ""
  displayName : String := ""
  tooltip : String := ""
  group : String := ""
  controlType : ControlType := .vec3
  location : ℤ := -1
  value : ℚ × ℚ × ℚ := (0, 0, 0)
  defaultValue : ℚ × ℚ × ℚ := (0, 0, 0)
  minValue : ℚ := -fltMax
  maxValue : ℚ := fltMax
  step : ℚ := mkRat 1 100
deriving DecidableEq, Repr

/-- Model of `Vec4Uniform`. -/
structure Vec4Uniform where
  name : String := ""
  displayName : String := ""
  tooltip : String := ""
  group : String := ""
  controlType : ControlType := .vec4
  location : ℤ := -1
  value : ℚ × ℚ × ℚ × ℚ := (0, 0, 0, 0)
  defaultValue : ℚ × ℚ × ℚ × ℚ := (0, 0, 0, 0)
  minValue : ℚ := -fltMax
  maxValue : ℚ := fltMax
  step : ℚ := mkRat 1 100
deriving DecidableEq, Repr

/-- Model of `ColorUniform`; the value is always stored with four channels. -/
structure ColorUniform where
  name : String := ""
  displayName : String := ""
  tooltip : String := ""
  group : String := ""
  controlType : ControlType := .colorPicker
  location : ℤ := -1
  value : ℚ × ℚ × ℚ × ℚ := (1, 1, 1, 1)
  defaultValue : ℚ × ℚ × ℚ × ℚ := (1, 1, 1, 1)
  hasAlpha : Bool := false
deriving DecidableEq, Repr

/-- Model of `DropdownUniform`. -/
structure DropdownUniform where
  name : String := ""
  displayName : String := ""
  tooltip : String := ""
  group : String := ""
  controlType : ControlType := .dropdown
  location : ℤ := -1
  value : ℤ := 0
  defaultValue : ℤ := 0
  options : List String := []
deriving DecidableEq, Repr

/-- Model of `UniformVariant` (a `std::variant` over the eight descriptor
types, in declaration order). -/
inductive UniformVariant where
  | float (u : FloatUniform)
  | int (u : IntUniform)
  | bool (u : BoolUniform)
  | vec2 (u : Vec2Uniform)
  | vec3 (u : Vec3Uniform)
  | vec4 (u : Vec4Uniform)
  | color (u : ColorUniform)
  | dropdown (u : DropdownUniform)
deriving DecidableEq, Repr

/-- The `std::variant::index()` of a descriptor. -/
def variantIndex : UniformVariant → Nat
  | .float _ => 0
  | .int _ => 1
  | .bool _ => 2
  | .vec2 _ => 3
  | .vec3 _ => 4
  | .vec4 _ => 5
  | .color _ => 6
  | .dropdown _ => 7

/-- The `name` field of whichever variant is present. -/
def uName : UniformVariant → String
  | .float u => u.name
  | .int u => u.name
  | .bool u => u.name
  | .vec2 u => u.name
  | .vec3 u => u.name
  | .vec4 u => u.name
  | .color u => u.name
  | .dropdown u => u.name

/-- Current values of the eight variants, gathered in one sum so that values
of old and new descriptors can be compared across a reload. -/
inductive UValue where
  | f (q : ℚ)
  | i (n : ℤ)
  | b (v : Bool)
  | v2 (v : ℚ × ℚ)
  | v3 (v : ℚ × ℚ × ℚ)
  | v4 (v : ℚ × ℚ × ℚ × ℚ)
deriving DecidableEq, Repr

/-- The `value` field of whichever variant is present. -/
def uValue : UniformVariant → UValue
  | .float u => .f u.value
  | .int u => .i u.value
  | .bool u => .b u.value
  | .vec2 u => .v2 u.value
  | .vec3 u => .v3 u.value
  | .vec4 u => .v4 u.value
  | .color u => .v4 u.value
  | .dropdown u => .i u.value

/-- The `defaultValue` field of whichever variant is present. -/
def uDefault : UniformVariant → UValue
  | .float u => .f u.defaultValue
  | .int u => .i u.defaultValue
  | .bool u => .b u.defaultValue
  | .vec2 u => .v2 u.defaultValue
  | .vec3 u => .v3 u.defaultValue
  | .vec4 u => .v4 u.defaultValue
  | .color u => .v4 u.defaultValue
  | .dropdown u => .i u.defaultValue

/-- Model of `UniformCollection`. -/
structure UniformCollection where
  uniforms : List UniformVariant := []
deriving DecidableEq, Repr

/-- Model of `UniformParser::toDisplayName`, body loop: each character is
emitted as a space when it is an underscore, with an inserted space when it
is an uppercase letter following a non-uppercase one; `prev` is the
preceding original character. -/
def tdnGo (prev : Char) : List Char → List Char
  | [] => []
  | c :: rest =>
    (if c = '_' then [' ']
     else if c.isUpper ∧ ¬ prev.isUpper then [' ', c]
     else [c]) ++ tdnGo c rest

/-- Model of `UniformParser::toDisplayName`: strip a leading `u`/`_` only
when followed by an uppercase letter, then run the loop; the first retained
character becomes a space when it is an underscore and is upper-cased
otherwise. -/
def toDisplayName (name : String) : String :=
  let cs := name.toList
  let body :=
    match cs with
    | c0 :: c1 :: rest =>
      if (c0 = 'u' ∨ c0 = '_') ∧ c1.isUpper then c1 :: rest else c0 :: c1 :: rest
    | _ => cs
  match body with
  | [] => ""
  | c :: rest =>
    String.mk ((if c = '_' then [' '] else [c.toUpper]) ++ tdnGo c rest)

/-- Model of `UniformParser::parseSlider`: a `float` declaration yields a
`FloatUniform`, an `int` declaration an `IntUniform`, anything else is
skipped with a warning. -/
def parseSlider (type name : String) (params : ParamMap) : Option UniformVariant :=
  if type = "float" then
    some (.float
      { name := name
        displayName := toDisplayName name
        controlType := .slider
        minValue := getNumber params "min" 0
        maxValue := getNumber params "max" 1
        defaultValue := getNumber params "default" 0
        value := getNumber params "default" 0
        step := getNumber params "step" (mkRat 1 100) })
  else if type = "int" then
    some (.int
      { name := name
        displayName := toDisplayName name
        controlType := .slider
        minValue := dToInt (getNumber params "min" 0)
        maxValue := dToInt (getNumber params "max" 100)
        defaultValue := dToInt (getNumber params "default" 0)
        value := dToInt (getNumber params "default" 0) })
  else none

/-- Model of `UniformParser::parseColor`: requires a `vec3` or `vec4`
declaration; a non-empty `default` array of three or four numbers replaces
both `defaultValue` and `value`, otherwise the constructor defaults stand. -/
def parseColor (type name : String) (params : ParamMap) : Option UniformVariant :=
  if type ≠ "vec3" ∧ type ≠ "vec4" then none
  else
    let base : ColorUniform :=
      { name := name
        displayName := toDisplayName name
        hasAlpha := type = "vec4" }
    let defaultArr := getNumberArray params "default"
    let u : ColorUniform :=
      if defaultArr ≠ [] then
        let d : ℚ × ℚ × ℚ × ℚ :=
          if defaultArr.length ≥ 4 then
            (defaultArr.getD 0 0, defaultArr.getD 1 0, defaultArr.getD 2 0, defaultArr.getD 3 0)
          else if defaultArr.length ≥ 3 then
            (defaultArr.getD 0 0, defaultArr.getD 1 0, defaultArr.getD 2 0, 1)
          else (1, 1, 1, 1)
        { base with defaultValue := d, value := d }
      else base
    some (.color u)

/-- Model of `UniformParser::parseCheckbox`: requires an `int` or `bool`
declaration. -/
def parseCheckbox (type name : String) (params : ParamMap) : Option UniformVariant :=
  if type ≠ "int" ∧ type ≠ "bool" then none
  else
    some (.bool
      { name := name
        displayName := toDisplayName name
        defaultValue := getBool params "default" false
        value := getBool params "default" false })

/-- Model of `UniformParser::parseVec`: dispatches on the DECLARED uniform
type alone (the directive name is not passed in), yielding the vector
descriptor of the declared type when it is `vec2`, `vec3` or `vec4`. -/
def parseVec (type name : String) (params : ParamMap) : Option UniformVariant :=
  if type = "vec2" then
    let base : Vec2Uniform := { name := name, displayName := toDisplayName name }
    let defaultArr := getNumberArray params "default"
    let withDefault :=
      if defaultArr.length ≥ 2 then
        let d := (defaultArr.getD 0 0, defaultArr.getD 1 0)
        { base with defaultValue := d, value := d }
      else base
    some (.vec2
      { withDefault with
        minValue := getNumber params "min" (-fltMax)
        maxValue := getNumber params "max" fltMax
        step := getNumber params "step" (mkRat 1 100) })
  else if type = "vec3" then
    let base : Vec3Uniform := { name := name, displayName := toDisplayName name }
    let defaultArr := getNumberArray params "default"
    let withDefault :=
      if defaultArr.length ≥ 3 then
        let d := (defaultArr.getD 0 0, defaultArr.getD 1 0, defaultArr.getD 2 0)
        { base with defaultValue := d, value := d }
      else base
    some (.vec3
      { withDefault with
        minValue := getNumber params "min" (-fltMax)
        maxValue := getNumber params "max" fltMax
        step := getNumber params "step" (mkRat 1 100) })
  else if type = "vec4" then
    let base : Vec4Uniform := { name := name, displayName := toDisplayName name }
    let defaultArr := getNumberArray params "default"
    let withDefault :=
      if defaultArr.length ≥ 4 then
        let d := (defaultArr.getD 0 0, defaultArr.getD 1 0, defaultArr.getD 2 0,
          defaultArr.getD 3 0)
        { base with defaultValue := d, value := d }
      else if defaultArr.length ≥ 3 then
        let d := (defaultArr.getD 0 0, defaultArr.getD 1 0, defaultArr.getD 2 0, (1 : ℚ))
        { base with defaultValue := d, value := d }
      else base
    some (.vec4
      { withDefault with
        minValue := getNumber params "min" (-fltMax)
        maxValue := getNumber params "max" fltMax
        step := getNumber params "step" (mkRat 1 100) })
  else none

/-- One regex match of `UniformParser::parse`: directive name, declared
uniform type, uniform identifier and the raw parameter text. -/
structure ScanMatch where
  aType : String
  uType : String
  uIdent : String
  params : String
deriving DecidableEq, Repr

/-- Directive dispatch of `UniformParser::parse` (lines 50–68): parse the
parameter text, then route on the directive name; unknown directives yield
no descriptor. -/
def dispatchMatch (m : ScanMatch) : Option UniformVariant :=
  let parsedParams := parseStr m.params
  if m.aType = "slider" then parseSlider m.uType m.uIdent parsedParams
  else if m.aType = "color" then parseColor m.uType m.uIdent parsedParams
  else if m.aType = "checkbox" then parseCheckbox m.uType m.uIdent parsedParams
  else if m.aType = "vec2" ∨ m.aType = "vec3" ∨ m.aType = "vec4" then
    parseVec m.uType m.uIdent parsedParams
  else none

/-- Descriptor collection built from the scanned matches in source order,
keeping exactly the matches whose builder produced a descriptor. -/
def parseMatches (ms : List ScanMatch) : UniformCollection :=
  ⟨ms.filterMap dispatchMatch⟩

end Uniforms

/-! ## Include preprocessor (`ShaderPreprocessor.cpp`)

The file system is a finite map from paths to file contents, with contents
already split into lines and each line classified: an `incl p` line stands
for a line matching the `#include` regex with extracted path `p` (the empty
`p` standing for a directive whose path extraction failed), and a `text s`
line for any other line.  Paths are taken to be already absolute, so
`resolveIncludePath` and `std::filesystem::absolute` collapse to lookup in
the modelled file system, and a zero-byte file is exactly a file with an
empty line list (`std::getline` yields no lines only for empty input). -/

namespace Pre

/-- One source line, as classified by `isIncludeDirective` +
`parseIncludePath`. -/
inductive SrcLine where
  | incl (path : String)
  | text (s : String)
deriving DecidableEq, Repr

/-- The modelled file system: path → lines. -/
abbrev FS := List (String × List SrcLine)

/-- File lookup (existence check plus read). -/
def FS.lookup (fs : FS) (p : String) : Option (List SrcLine) :=
  match fs with
  | [] => none
  | (k, v) :: rest => if k = p then some v else FS.lookup rest p

/-- Mutable preprocessor state: the visited-path set `processedFiles_`
(kept as a list with set semantics), the ordered dependency list and the
error message (empty string = no error, as in the C++ member). -/
structure PPState where
  processedFiles : List String
  dependencies : List String
  errorMessage : String
deriving DecidableEq, Repr

/-- The initial state of a fresh `ShaderPreprocessor` instance. -/
def initPP : PPState := ⟨[], [], ""⟩

/-- Distinct paths present in the file system. -/
def fsPaths (fs : FS) : List String :=
  (fs.map Prod.fst).dedup

/-- Remaining expansion work: one fuel unit per line of every not-yet-visited
file, plus one per visit.  Because the visited-path set only ever grows, the
total number of steps `processRecursive` can take is bounded by this
quantity plus the lines of the current file. -/
def pendingWork (fs : FS) (st : PPState) : Nat :=
  (((fsPaths fs).filter (fun p => ¬ p ∈ st.processedFiles)).map
    (fun p => ((FS.lookup fs p).getD []).length + 1)).sum

/-- Model of `ShaderPreprocessor::processRecursive`: walk the lines of the
current file; an include line resolves its path, rejects an empty
extraction, a missing file, an already-visited file (the circular check —
the `processedFiles_.erase` call in the C++ source is commented out, so a
path is never un-marked), and an empty file, then marks the path visited,
records the dependency and splices the recursive expansion between BEGIN
and END marker comments.  The recursion is structural in an explicit fuel
consumed once per processed line and once per file visit; `none` is
returned only on fuel exhaustion, which the budget of `fuelFor` rules out. -/
def processLines (fs : FS) :
    Nat → List SrcLine → String → Nat → PPState → Option (PPState × String)
  | 0, _, _, _, _ => none
  | _ + 1, [], _, _, st => some (st, "")
  | fuel + 1, .text s :: rest, cur, ln, st =>
    match processLines fs fuel rest cur (ln + 1) st with
    | none => none
    | some (st', out) => some (st', s ++ "\n" ++ out)
  | fuel + 1, .incl p :: rest, cur, ln, st =>
    if p = "" then
      some ({ st with errorMessage :=
        "Invalid #include syntax at line " ++ toString ln ++ " in " ++ cur }, "")
    else
      match FS.lookup fs p with
      | none =>
        some ({ st with errorMessage :=
          "Include file not found: " ++ p ++ " (referenced in " ++ cur ++
          " at line " ++ toString ln ++ ")" }, "")
      | some content =>
        if p ∈ st.processedFiles then
          some ({ st with errorMessage :=
            "Circular include detected: " ++ p ++ " (in " ++ cur ++
            " at line " ++ toString ln ++ ")" }, "")
        else
          let st1 : PPState :=
            { st with processedFiles := p :: st.processedFiles,
                      dependencies := st.dependencies ++ [p] }
          if content = [] then
            some ({ st1 with errorMessage := "Failed to read include file: " ++ p }, "")
          else
            match processLines fs fuel content p 1 st1 with
            | none => none
            | some (st2, processed) =>
              if st2.errorMessage ≠ "" then some (st2, "")
              else
                match processLines fs fuel rest cur (ln + 1) st2 with
                | none => none
                | some (st3, out) =>
                  some (st3,
                    "// BEGIN INCLUDE: " ++ p ++ "\n" ++ processed ++
                    "// END INCLUDE: " ++ p ++ "\n" ++ out)

/-- Fuel budget that `process` hands to `processLines`: enough for every
line of the main file plus every line and visit of every file, which the
adequacy lemma shows is never exhausted. -/
def fuelFor (fs : FS) (mc : List SrcLine) : Nat :=
  mc.length + 1 + pendingWork fs initPP

/-- Transitive include reachability from a list of lines: the paths pulled
in by an include line of the list itself or, recursively, by a line of an
included file's content. -/
inductive Touches (fs : FS) : List SrcLine → String → Prop
  | here (p : String) (rest : List SrcLine) : Touches fs (.incl p :: rest) p
  | deeper {p : String} {rest content : List SrcLine} {q : String} :
      FS.lookup fs p = some content → Touches fs content q →
      Touches fs (.incl p :: rest) q
  | later {l : SrcLine} {rest : List SrcLine} {q : String} :
      Touches fs rest q → Touches fs (l :: rest) q

/-- Explicit include chain witnessing reachability: the empty chain is a
direct include occurrence, and `f :: t` first includes `f` and continues
inside its content. -/
def ChainP (fs : FS) : List SrcLine → List String → String → Prop
  | l, [], q => SrcLine.incl q ∈ l
  | l, f :: t, q =>
    SrcLine.incl f ∈ l ∧ ∃ cf, FS.lookup fs f = some cf ∧ ChainP fs cf t q

/-- Total number of `#include` occurrences of target `q` across every file
of the file system. -/
def totalCount (fs : FS) (q : String) : Nat :=
  (fs.map (fun e => e.2.count (SrcLine.incl q))).sum

/-- Every include target occurring anywhere in the file system, with
multiplicity. -/
def allTargets (fs : FS) : List String :=
  fs.flatMap (fun e => e.2.filterMap (fun line =>
    match line with
    | .incl p => some p
    | .text _ => none))

/-- Decidable formulation of "no file is included more than once across the
whole file system". -/
def uniqueTargets (fs : FS) : Prop :=
  (allTargets fs).Nodup

instance (fs : FS) : Decidable (uniqueTargets fs) :=
  inferInstanceAs (Decidable (allTargets fs).Nodup)

/-- Line-level validity: every include line of `l` carries a non-empty
extracted path that resolves to a non-empty file. -/
def linesOK (fs : FS) (l : List SrcLine) : Bool :=
  l.all (fun line =>
    match line with
    | .text _ => true
    | .incl p =>
      (p != "") &&
        (match FS.lookup fs p with
         | some c => c != []
         | none => false))

/-- File-system validity: every stored file satisfies `linesOK`. -/
def fsOK (fs : FS) : Bool :=
  fs.all (fun e => linesOK fs e.2)

/-- Concatenated pass-through rendering of a run of text lines, as
`processRecursive` emits them. -/
def textJoin (ts : List SrcLine) : String :=
  ts.foldr (fun l acc =>
    (match l with
     | .text s => s ++ "\n"
     | .incl _ => "") ++ acc) ""

/-- Model of `PreprocessResult`. -/
structure PreprocessResult where
  success : Bool := false
  source : String := ""
  errorMessage : String := ""
  dependencies : List String := []
deriving DecidableEq, Repr

/-- Model of `ShaderPreprocessor::process`: check existence, read the main
file, run the recursive expansion on a fresh instance and package the
outcome; on error the partial output and dependency list are discarded. -/
def process (fs : FS) (mainFilePath : String) : PreprocessResult :=
  match FS.lookup fs mainFilePath with
  | none =>
    { success := false, errorMessage := "Shader file not found: " ++ mainFilePath }
  | some content =>
    match processLines fs (fuelFor fs content) content mainFilePath 1 initPP with
    | none => { success := false, errorMessage := "fuel exhausted" }
    | some (st, out) =>
      if st.errorMessage ≠ "" then
        { success := false, errorMessage := st.errorMessage }
      else
        { success := true, source := out, dependencies := st.dependencies }

end Pre

/-! ## Reload coordinator (`ShaderLayer.cpp`)

The coordinator is modelled as a pure state transition over a `World` that
carries the file system, a modification-timestamp oracle, the external
compiler oracle (`tryCompileShader` on the preprocessed fragment source;
the vertex shader is the fixed built-in one), the uniform-location oracle
(`glGetUniformLocation`) and the regex scanner oracle that extracts
annotation matches from the flattened source (the `std::sregex_iterator`
loop of `UniformParser::parse`; the directive dispatch applied to those
matches is the faithful `Uniforms.parseMatches`).  GL handles are numbers;
`0` is "no program". -/

namespace Layer

open Uniforms

/-- Model of `ShaderCompileResult`. -/
structure ShaderCompileResult where
  success : Bool := false
  errorLog : String := ""
  programId : Nat := 0
deriving DecidableEq, Repr

/-- The external collaborators of the coordinator. -/
structure World where
  fs : Pre.FS
  mtime : String → ℤ
  compile : String → ShaderCompileResult
  loc : Nat → String → ℤ
  scan : String → List ScanMatch

/-- Mutable `ShaderLayer` fields that the load/reload protocol touches. -/
structure LayerState where
  shaderProgram : Nat := 0
  shaderPath : String := ""
  shaderSource : String := ""
  lastModTime : ℤ := 0
  lastError : String := ""
  autoReload : Bool := true
  shaderDependencies : List String := []
  dependencyModTimes : List (String × ℤ) := []
  uniforms : UniformCollection := {}
deriving DecidableEq

/-- Lookup in the `dependencyModTimes_` map. -/
def lookupMT (m : List (String × ℤ)) (k : String) : Option ℤ :=
  match m with
  | [] => none
  | (k', v') :: rest => if k' = k then some v' else lookupMT rest k

/-- Map update for `dependencyModTimes_[dep] = t`. -/
def insertMT (m : List (String × ℤ)) (k : String) (t : ℤ) : List (String × ℤ) :=
  match m with
  | [] => [(k, t)]
  | (k', v') :: rest => if k' = k then (k, t) :: rest else (k', v') :: insertMT rest k t

/-- Saved-value map of `loadShader` (a `std::map<std::string, UniformVariant>`
filled with `operator[]`, so a later descriptor of the same name
overwrites). -/
def insertSaved (m : List (String × UniformVariant)) (k : String) (u : UniformVariant) :
    List (String × UniformVariant) :=
  match m with
  | [] => [(k, u)]
  | (k', v') :: rest => if k' = k then (k, u) :: rest else (k', v') :: insertSaved rest k u

/-- Lookup in the saved-value map. -/
def lookupSaved (m : List (String × UniformVariant)) (k : String) : Option UniformVariant :=
  match m with
  | [] => none
  | (k', v') :: rest => if k' = k then some v' else lookupSaved rest k

/-- The saved-value map built from the previous collection (lines 224–229). -/
def savedMap (old : List UniformVariant) : List (String × UniformVariant) :=
  old.foldl (fun m u => insertSaved m (uName u) u) []

/-- Same-variant value copy (the inner `if constexpr` visit): the new
descriptor keeps all its fields except `value`, which is taken from the
saved descriptor.  Called only when the variant indexes agree; mismatched
constructors leave the new descriptor unchanged. -/
def copyValue (saved u : UniformVariant) : UniformVariant :=
  match saved, u with
  | .float s, .float t => .float { t with value := s.value }
  | .int s, .int t => .int { t with value := s.value }
  | .bool s, .bool t => .bool { t with value := s.value }
  | .vec2 s, .vec2 t => .vec2 { t with value := s.value }
  | .vec3 s, .vec3 t => .vec3 { t with value := s.value }
  | .vec4 s, .vec4 t => .vec4 { t with value := s.value }
  | .color s, .color t => .color { t with value := s.value }
  | .dropdown s, .dropdown t => .dropdown { t with value := s.value }
  | _, _ => u

/-- Restore step for one new descriptor (lines 235–255): look its name up in
the saved map and copy the old value only when the variant indexes match. -/
def restoreOne (saved : List (String × UniformVariant)) (u : UniformVariant) : UniformVariant :=
  match lookupSaved saved (uName u) with
  | none => u
  | some sv => if variantIndex sv = variantIndex u then copyValue sv u else u

/-- Value merge across a reload: save old values by name, then restore them
into the freshly parsed collection. -/
def mergeValues (old new : UniformCollection) : UniformCollection :=
  ⟨new.uniforms.map (restoreOne (savedMap old.uniforms))⟩

/-- Per-descriptor step of `UniformEditor::updateLocations`. -/
def setLoc (w : World) (prog : Nat) : UniformVariant → UniformVariant
  | .float u => .float { u with location := w.loc prog u.name }
  | .int u => .int { u with location := w.loc prog u.name }
  | .bool u => .bool { u with location := w.loc prog u.name }
  | .vec2 u => .vec2 { u with location := w.loc prog u.name }
  | .vec3 u => .vec3 { u with location := w.loc prog u.name }
  | .vec4 u => .vec4 { u with location := w.loc prog u.name }
  | .color u => .color { u with location := w.loc prog u.name }
  | .dropdown u => .dropdown { u with location := w.loc prog u.name }

/-- Model of `UniformEditor::updateLocations`. -/
def updateLocations (w : World) (prog : Nat) (c : UniformCollection) : UniformCollection :=
  ⟨c.uniforms.map (setLoc w prog)⟩

/-- Model of `ShaderLayer::loadShader`: record the path and clear the error,
then existence check → preprocess → store the dependency list → compile →
on success adopt program, source, timestamps, snapshot, and the merged
uniform collection.  Each failure returns before the later mutations. -/
def loadShader (w : World) (s : LayerState) (fragmentPath : String) : Bool × LayerState :=
  let s0 := { s with shaderPath := fragmentPath, lastError := "" }
  if (Pre.FS.lookup w.fs fragmentPath).isNone then
    (false, { s0 with lastError := "File not found: " ++ fragmentPath })
  else
    let pre := Pre.process w.fs fragmentPath
    if pre.success = false then
      (false, { s0 with lastError := "Preprocessing failed: " ++ pre.errorMessage })
    else
      let fragmentSrc := pre.source
      let s1 := { s0 with shaderDependencies := pre.dependencies }
      let cr := w.compile fragmentSrc
      if cr.success = false then
        (false, { s1 with lastError := cr.errorLog })
      else
        let parsed := parseMatches (w.scan fragmentSrc)
        let merged := mergeValues s1.uniforms parsed
        (true,
          { s1 with
            shaderProgram := cr.programId
            shaderSource := fragmentSrc
            lastModTime := w.mtime fragmentPath
            dependencyModTimes :=
              pre.dependencies.foldl (fun m dep => insertMT m dep (w.mtime dep)) []
            uniforms := updateLocations w cr.programId merged })

/-- Stale-dependency search of `checkAndReload` (lines 288–299): the first
dependency whose current timestamp differs from its snapshot entry;
dependencies absent from the snapshot are skipped. -/
def findStale (w : World) (s : LayerState) : Option String :=
  s.shaderDependencies.find? (fun dep =>
    match lookupMT s.dependencyModTimes dep with
    | some t => w.mtime dep ≠ t
    | none => false)

/-- Model of `ShaderLayer::checkAndReload`: nothing happens when auto-reload
is off or no path is set; otherwise reload when the main file's timestamp
changed, else when some snapshot entry went stale, else report `false` with
the state untouched. -/
def checkAndReload (w : World) (s : LayerState) : Bool × LayerState :=
  if s.autoReload = false ∨ s.shaderPath = "" then (false, s)
  else if w.mtime s.shaderPath ≠ s.lastModTime then loadShader w s s.shaderPath
  else
    match findStale w s with
    | some _ => loadShader w s s.shaderPath
    | none => (false, s)

/-- Repeated polling of `checkAndReload`, once per frame. -/
def pollIter (w : World) : Nat → LayerState → LayerState
  | 0, s => s
  | n + 1, s => pollIter w n (checkAndReload w s).2

end Layer

/-! ## Concrete fixtures used by the per-claim witnesses and
counterexamples -/

/-- Diamond-shaped include graph: the main file includes `b` and `c`, both
of which include `d`; every file exists and is non-empty, and no file
includes itself transitively. -/
def fsDiamond : Pre.FS :=
  [("main.glsl", [.incl "b.glsl", .incl "c.glsl", .text "void main()"]),
   ("b.glsl", [.incl "d.glsl", .text "b"]),
   ("c.glsl", [.incl "d.glsl", .text "c"]),
   ("d.glsl", [.text "d"])]

/-- Two-file chain for the positive include theorem: main includes `b`. -/
def fsChainW : Pre.FS :=
  [("main.glsl", [.incl "b.glsl"]),
   ("b.glsl", [.text "b"])]

/-- Two-file cycle `a includes b includes a`. -/
def fsCycW : Pre.FS :=
  [("a.glsl", [.incl "b.glsl"]),
   ("b.glsl", [.incl "a.glsl", .text "x"])]

/-- Main file including an existing zero-byte file. -/
def fsEmptyW : Pre.FS :=
  [("main.glsl", [.text "x", .incl "e.glsl"]),
   ("e.glsl", [])]

/-- World whose compiler always fails; preprocessing of `m.glsl` succeeds
with an empty dependency list. -/
def wCompileFail : Layer.World :=
  { fs := [("m.glsl", [.text "void"])]
    mtime := fun _ => 0
    compile := fun _ => { success := false, errorLog := "boom" }
    loc := fun _ _ => -1
    scan := fun _ => [] }

/-- Coordinator state holding a previously adopted dependency list. -/
def sPrevDeps : Layer.LayerState :=
  { shaderProgram := 5
    shaderPath := "m.glsl"
    lastModTime := 3
    shaderDependencies := ["old.glsl"]
    dependencyModTimes := [("old.glsl", 3)] }

/-- World for the value-preservation witness: one floating slider scanned
from the flattened source, compilation succeeds. -/
def wMergeW : Layer.World :=
  { fs := [("m.glsl", [.text "x"])]
    mtime := fun _ => 0
    compile := fun _ => { success := true, errorLog := "", programId := 7 }
    loc := fun _ _ => 3
    scan := fun _ => [⟨"slider", "float", "uSpeed", "min=0, max=10"⟩] }

/-- Previous coordinator state whose `uSpeed` float has the user-tweaked
value `3.5`. -/
def sMergeW : Layer.LayerState :=
  { uniforms := ⟨[.float { name := "uSpeed", value := mkRat 7 2, defaultValue := 1 }]⟩ }

/-- World whose timestamps all equal `5`. -/
def wStillW : Layer.World :=
  { fs := [("m.glsl", [.text "x"])]
    mtime := fun _ => 5
    compile := fun _ => { success := true, errorLog := "", programId := 7 }
    loc := fun _ _ => -1
    scan := fun _ => [] }

/-- Loaded state whose snapshot matches the timestamps of `wStillW`. -/
def sStillW : Layer.LayerState :=
  { shaderProgram := 7
    shaderPath := "m.glsl"
    lastModTime := 5
    shaderDependencies := ["d.glsl"]
    dependencyModTimes := [("d.glsl", 5)] }

/-! ## Claim C5 — display-name derivation -/

/-- C5: evaluating the embedded `toDisplayName` at the claim's two examples.
`uMySpeed` maps to `My Speed` as claimed, but `speed_factor` maps to
`Speed factor`: the loop turns the underscore into a space without
capitalising the following letter, contradicting the claimed
`Speed Factor` (which is also what the comment above the C++ function
promises). -/
theorem c5_toDisplayName_eval :
    Uniforms.toDisplayName "uMySpeed" = "My Speed" ∧
    Uniforms.toDisplayName "speed_factor" = "Speed factor" ∧
    Uniforms.toDisplayName "speed_factor" ≠ "Speed Factor" := by
  refine ⟨rfl, rfl, ?_⟩
  decide

/-! ## Claim C7 — vector directive dispatch -/

/-- C7 counterexample: a `@vec2` directive sitting on a declared `vec3`
uniform produces a descriptor (the `Vec3` variant, index 4) even though the
directive name does not match the declared type, where the claim demands
that no descriptor be produced. -/
theorem c7_counterexample :
    Uniforms.dispatchMatch ⟨"vec2", "vec3", "uDir", ""⟩ ≠ none ∧
    (Uniforms.dispatchMatch ⟨"vec2", "vec3", "uDir", ""⟩).map Uniforms.variantIndex = some 4 := by
  refine ⟨?_, ?_⟩ <;> decide

/-- C7 amended: for a `vec2`/`vec3`/`vec4` directive, a descriptor is
produced exactly when the DECLARED type is one of `vec2`/`vec3`/`vec4`
(whether or not it matches the directive name), and the produced
descriptor is the vector variant of the DECLARED type. -/
theorem c7_amended (m : Uniforms.ScanMatch)
    (hdir : m.aType = "vec2" ∨ m.aType = "vec3" ∨ m.aType = "vec4") :
    ((Uniforms.dispatchMatch m).isSome ↔
      (m.uType = "vec2" ∨ m.uType = "vec3" ∨ m.uType = "vec4")) ∧
    (∀ u, Uniforms.dispatchMatch m = some u →
      Uniforms.variantIndex u =
        (if m.uType = "vec2" then 3 else if m.uType = "vec3" then 4 else 5)) := by
  have hd : Uniforms.dispatchMatch m =
      Uniforms.parseVec m.uType m.uIdent (parseStr m.params) := by
    rcases hdir with h | h | h <;> simp [Uniforms.dispatchMatch, h]
  rw [hd]
  by_cases h2 : m.uType = "vec2"
  · constructor
    · simp [Uniforms.parseVec, h2]
    · intro u hu
      simp only [Uniforms.parseVec, h2, if_true] at hu
      simp only [Option.some.injEq] at hu
      subst hu
      simp [Uniforms.variantIndex, h2]
  · by_cases h3 : m.uType = "vec3"
    · constructor
      · simp [Uniforms.parseVec, h2, h3]
      · intro u hu
        simp [Uniforms.parseVec, h2, h3] at hu
        subst hu
        simp [Uniforms.variantIndex, h2, h3]
    · by_cases h4 : m.uType = "vec4"
      · constructor
        · simp [Uniforms.parseVec, h2, h3, h4]
        · intro u hu
          simp [Uniforms.parseVec, h2, h3, h4] at hu
          subst hu
          simp [Uniforms.variantIndex, h2, h3, h4]
      · constructor
        · simp [Uniforms.parseVec, h2, h3, h4]
        · intro u hu
          simp [Uniforms.parseVec, h2, h3, h4] at hu

/-- C7 witness: the amended theorem applied at a matching `@vec2` on a
declared `vec2`. -/
theorem c7_witness :
    (Uniforms.dispatchMatch ⟨"vec2", "vec2", "uPan", ""⟩).isSome = true := by
  have h := c7_amended ⟨"vec2", "vec2", "uPan", ""⟩ (Or.inl rfl)
  exact h.1.mpr (Or.inl rfl)

/-! ## Claim C6 — hex color parsing -/

/-- C6 counterexample: a three-digit hex value `#FFF` does log a warning,
but the returned color is opaque black `[0,0,0,1]` (the initial `r,g,b,a`
values of the C++ code), not the claimed white `[1,1,1]`. -/
theorem c6_counterexample :
    lookupParam (parseStr "default=#FFF") "default" = some (.numArr [0, 0, 0, 1]) ∧
    lookupParam (parseStr "default=#FFF") "default" ≠ some (.numArr [1, 1, 1]) := by
  refine ⟨?_, ?_⟩ <;> decide

/-- C6 amended: six hex digits give `[r/255, g/255, b/255, 1]` and eight
give the alpha channel from the last pair, exactly as claimed; any other
digit count logs a warning and returns opaque black `[0,0,0,1]` (white
`[1,1,1]` is produced only when no digit token follows `#` at all). -/
theorem c6_amended (s : String) (hhex : ∀ c ∈ s.toList, (hexDigit c).isSome) :
    (s.toList.length = 6 →
      hexToRGBA s =
        [mkRat (hexByte s 0) 255, mkRat (hexByte s 2) 255, mkRat (hexByte s 4) 255, 1]) ∧
    (s.toList.length = 8 →
      hexToRGBA s =
        [mkRat (hexByte s 0) 255, mkRat (hexByte s 2) 255, mkRat (hexByte s 4) 255,
          mkRat (hexByte s 6) 255]) ∧
    (s.toList.length ≠ 6 → s.toList.length ≠ 8 → hexToRGBA s = [0, 0, 0, 1]) := by
  have hp : ∀ i, i + 1 < s.toList.length →
      ∃ n, hexPair (s.toList.getD i ' ') (s.toList.getD (i + 1) ' ') = some n := by
    intro i hi
    have hm1 : s.toList.getD i ' ' ∈ s.toList := by
      rw [List.getD_eq_getElem s.toList ' ' (by omega)]
      exact List.getElem_mem _
    have hm2 : s.toList.getD (i + 1) ' ' ∈ s.toList := by
      rw [List.getD_eq_getElem s.toList ' ' hi]
      exact List.getElem_mem _
    obtain ⟨a, ha⟩ := Option.isSome_iff_exists.mp (hhex _ hm1)
    obtain ⟨b, hb⟩ := Option.isSome_iff_exists.mp (hhex _ hm2)
    refine ⟨16 * a + b, ?_⟩
    unfold hexPair
    rw [ha, hb]
  refine ⟨?_, ?_, ?_⟩
  · intro h6
    obtain ⟨r, hr⟩ := hp 0 (by omega)
    obtain ⟨g, hg⟩ := hp 2 (by omega)
    obtain ⟨b, hb⟩ := hp 4 (by omega)
    simp only [hexToRGBA, hexByte, h6, if_true, hr, hg, hb]
    norm_num
  · intro h8
    have h6 : ¬ s.toList.length = 6 := by omega
    obtain ⟨r, hr⟩ := hp 0 (by omega)
    obtain ⟨g, hg⟩ := hp 2 (by omega)
    obtain ⟨b, hb⟩ := hp 4 (by omega)
    obtain ⟨a, ha⟩ := hp 6 (by omega)
    simp only [hexToRGBA, hexByte, h6, h8, if_true, if_false, hr, hg, hb, ha]
    norm_num
  · intro h6 h8
    simp only [hexToRGBA, h6, h8, if_false]
    norm_num

/-- C6 witness: the amended theorem applied at the claim's `#FF8800`
example, together with the value observed through the full parse pipeline. -/
theorem c6_witness :
    hexToRGBA "FF8800" = [1, mkRat 136 255, 0, 1] ∧
    lookupParam (parseStr "default=#FF8800") "default" =
      some (.numArr [1, mkRat 136 255, 0, 1]) := by
  constructor
  · have h := (c6_amended "FF8800" (by decide)).1 (by decide)
    rw [h]
    decide
  · decide

/-! ## Claim C8 — parse errors degrade to an empty map -/

/-- C8: whenever the internal parameter parser raises an error (the
modelled `throw` of `expect`), the top-level `parse` returns the completely
empty map — never a partial one, and in the model the entry point is a
total function, so no exception escapes. -/
theorem c8_error_empty (ts : List Token) (e : String)
    (h : parseParamsE ts = .error e) : parseTokens ts = [] := by
  simp [parseTokens, h]

/-- C8 witness: the malformed input `a b` (missing `=`) raises exactly the
expected-equals error inside the parser and yields the empty map at the
top level. -/
theorem c8_witness :
    parseParamsE (tokenize "a b") = .error "Expected '=' after parameter name" ∧
    parseTokens (tokenize "a b") = [] := by
  constructor
  · rfl
  · exact c8_error_empty (tokenize "a b") "Expected '=' after parameter name" rfl

/-! ## Claim C2 — state preservation on load failure -/

/-- C2 counterexample: a shader whose preprocessing succeeds but whose
compilation fails leaves `loadShader` returning failure with the
dependency list already replaced by the fresh preprocess result, so the
"dependency list unchanged on any failure" part of the claim is false. -/
theorem c2_counterexample :
    (Layer.loadShader wCompileFail sPrevDeps "m.glsl").1 = false ∧
    (Layer.loadShader wCompileFail sPrevDeps "m.glsl").2.shaderDependencies ≠
      sPrevDeps.shaderDependencies ∧
    (Layer.loadShader wCompileFail sPrevDeps "m.glsl").2.shaderProgram =
      sPrevDeps.shaderProgram ∧
    (Layer.loadShader wCompileFail sPrevDeps "m.glsl").2.dependencyModTimes =
      sPrevDeps.dependencyModTimes := by
  refine ⟨?_, ?_, ?_, ?_⟩ <;> decide

/-- C2 amended: on any failing `loadShader` the compiled program, the
uniform collection, the main-file timestamp, the dependency snapshot and
the cached source are left unchanged; the dependency list is unchanged when
the file is missing or preprocessing fails, but is replaced by the new
preprocess result when compilation fails after a successful preprocess. -/
theorem c2_amended (w : Layer.World) (s : Layer.LayerState) (path : String)
    (s' : Layer.LayerState) (h : Layer.loadShader w s path = (false, s')) :
    s'.shaderProgram = s.shaderProgram ∧
    s'.uniforms = s.uniforms ∧
    s'.lastModTime = s.lastModTime ∧
    s'.dependencyModTimes = s.dependencyModTimes ∧
    s'.shaderSource = s.shaderSource ∧
    (s'.shaderDependencies = s.shaderDependencies ∨
      s'.shaderDependencies = (Pre.process w.fs path).dependencies) := by
  by_cases hlk : (Pre.FS.lookup w.fs path).isNone = true
  · simp only [Layer.loadShader, hlk, if_true] at h
    injection h with h1 h2
    subst h2
    exact ⟨rfl, rfl, rfl, rfl, rfl, Or.inl rfl⟩
  · by_cases hpre : (Pre.process w.fs path).success = false
    · simp only [Layer.loadShader, hlk, hpre, if_true, if_false] at h
      injection h with h1 h2
      subst h2
      exact ⟨rfl, rfl, rfl, rfl, rfl, Or.inl rfl⟩
    · by_cases hcomp : (w.compile (Pre.process w.fs path).source).success = false
      · simp only [Layer.loadShader, hlk, hpre, hcomp, if_true, if_false] at h
        injection h with h1 h2
        subst h2
        exact ⟨rfl, rfl, rfl, rfl, rfl, Or.inr rfl⟩
      · simp only [Layer.loadShader, hlk, hpre, hcomp, if_true, if_false] at h
        injection h with h1 h2
        exact absurd h1 (by decide)

/-- C2 witness: the amended theorem applied at the concrete compile-failure
world. -/
theorem c2_witness :
    (Layer.loadShader wCompileFail sPrevDeps "m.glsl").2.shaderProgram =
      sPrevDeps.shaderProgram ∧
    (Layer.loadShader wCompileFail sPrevDeps "m.glsl").2.uniforms =
      sPrevDeps.uniforms := by
  have h := c2_amended wCompileFail sPrevDeps "m.glsl"
    (Layer.loadShader wCompileFail sPrevDeps "m.glsl").2 (by decide)
  exact ⟨h.1, h.2.1⟩

/-! ## Claim C3 — value preservation across a reload -/

/-- Every descriptor produced by `parseSlider` starts at its own default. -/
theorem parseSlider_vd (t n : String) (p : ParamMap) (u : Uniforms.UniformVariant)
    (h : Uniforms.parseSlider t n p = some u) : Uniforms.uValue u = Uniforms.uDefault u := by
  simp only [Uniforms.parseSlider] at h
  split at h
  · injection h with h2
    subst h2
    rfl
  · split at h
    · injection h with h2
      subst h2
      rfl
    · exact Option.noConfusion h

/-- Every descriptor produced by `parseColor` starts at its own default. -/
theorem parseColor_vd (t n : String) (p : ParamMap) (u : Uniforms.UniformVariant)
    (h : Uniforms.parseColor t n p = some u) : Uniforms.uValue u = Uniforms.uDefault u := by
  simp only [Uniforms.parseColor] at h
  split at h
  · exact Option.noConfusion h
  · injection h with h2
    subst h2
    split <;> rfl

/-- Every descriptor produced by `parseCheckbox` starts at its own default. -/
theorem parseCheckbox_vd (t n : String) (p : ParamMap) (u : Uniforms.UniformVariant)
    (h : Uniforms.parseCheckbox t n p = some u) : Uniforms.uValue u = Uniforms.uDefault u := by
  simp only [Uniforms.parseCheckbox] at h
  split at h
  · exact Option.noConfusion h
  · injection h with h2
    subst h2
    rfl

/-- Every descriptor produced by `parseVec` starts at its own default. -/
theorem parseVec_vd (t n : String) (p : ParamMap) (u : Uniforms.UniformVariant)
    (h : Uniforms.parseVec t n p = some u) : Uniforms.uValue u = Uniforms.uDefault u := by
  simp only [Uniforms.parseVec] at h
  split at h
  · injection h with h2
    subst h2
    split <;> rfl
  · split at h
    · injection h with h2
      subst h2
      split <;> rfl
    · split at h
      · injection h with h2
        subst h2
        split
        · rfl
        · split <;> rfl
      · exact Option.noConfusion h

/-- Every descriptor the directive dispatch produces starts at its own
default: the only field that can later diverge from `defaultValue` is a
user edit of `value`, which only the merge can re-introduce. -/
theorem dispatch_value_default (m : Uniforms.ScanMatch) (u : Uniforms.UniformVariant)
    (h : Uniforms.dispatchMatch m = some u) : Uniforms.uValue u = Uniforms.uDefault u := by
  simp only [Uniforms.dispatchMatch] at h
  split at h
  · exact parseSlider_vd _ _ _ _ h
  · split at h
    · exact parseColor_vd _ _ _ _ h
    · split at h
      · exact parseCheckbox_vd _ _ _ _ h
      · split at h
        · exact parseVec_vd _ _ _ _ h
        · exact Option.noConfusion h

/-- `setLoc` only touches the `location` field. -/
theorem setLoc_value (w : Layer.World) (prog : Nat) (u : Uniforms.UniformVariant) :
    Uniforms.uValue (Layer.setLoc w prog u) = Uniforms.uValue u := by
  cases u <;> rfl

/-- `setLoc` keeps the default. -/
theorem setLoc_default (w : Layer.World) (prog : Nat) (u : Uniforms.UniformVariant) :
    Uniforms.uDefault (Layer.setLoc w prog u) = Uniforms.uDefault u := by
  cases u <;> rfl

/-- `setLoc` keeps the name. -/
theorem setLoc_name (w : Layer.World) (prog : Nat) (u : Uniforms.UniformVariant) :
    Uniforms.uName (Layer.setLoc w prog u) = Uniforms.uName u := by
  cases u <;> rfl

/-- `setLoc` keeps the variant tag. -/
theorem setLoc_index (w : Layer.World) (prog : Nat) (u : Uniforms.UniformVariant) :
    Uniforms.variantIndex (Layer.setLoc w prog u) = Uniforms.variantIndex u := by
  cases u <;> rfl

/-- On matching tags the copied descriptor carries the saved value. -/
theorem copyValue_value (s u : Uniforms.UniformVariant)
    (h : Uniforms.variantIndex s = Uniforms.variantIndex u) :
    Uniforms.uValue (Layer.copyValue s u) = Uniforms.uValue s := by
  cases s <;> cases u <;> first | rfl | simp [Uniforms.variantIndex] at h

/-- The copy keeps the new descriptor's name. -/
theorem copyValue_name (s u : Uniforms.UniformVariant) :
    Uniforms.uName (Layer.copyValue s u) = Uniforms.uName u := by
  cases s <;> cases u <;> rfl

/-- The copy keeps the new descriptor's default. -/
theorem copyValue_default (s u : Uniforms.UniformVariant) :
    Uniforms.uDefault (Layer.copyValue s u) = Uniforms.uDefault u := by
  cases s <;> cases u <;> rfl

/-- The copy keeps the new descriptor's variant tag. -/
theorem copyValue_index (s u : Uniforms.UniformVariant) :
    Uniforms.variantIndex (Layer.copyValue s u) = Uniforms.variantIndex u := by
  cases s <;> cases u <;> rfl

/-- The restore step keeps the name. -/
theorem restoreOne_name (saved : List (String × Uniforms.UniformVariant))
    (u : Uniforms.UniformVariant) :
    Uniforms.uName (Layer.restoreOne saved u) = Uniforms.uName u := by
  unfold Layer.restoreOne
  cases hl : Layer.lookupSaved saved (Uniforms.uName u) with
  | none => rfl
  | some sv =>
    by_cases hi : Uniforms.variantIndex sv = Uniforms.variantIndex u
    · show Uniforms.uName (if Uniforms.variantIndex sv = Uniforms.variantIndex u
        then Layer.copyValue sv u else u) = Uniforms.uName u
      rw [if_pos hi, copyValue_name]
    · show Uniforms.uName (if Uniforms.variantIndex sv = Uniforms.variantIndex u
        then Layer.copyValue sv u else u) = Uniforms.uName u
      rw [if_neg hi]

/-- The restore step keeps the default. -/
theorem restoreOne_default (saved : List (String × Uniforms.UniformVariant))
    (u : Uniforms.UniformVariant) :
    Uniforms.uDefault (Layer.restoreOne saved u) = Uniforms.uDefault u := by
  unfold Layer.restoreOne
  cases hl : Layer.lookupSaved saved (Uniforms.uName u) with
  | none => rfl
  | some sv =>
    by_cases hi : Uniforms.variantIndex sv = Uniforms.variantIndex u
    · show Uniforms.uDefault (if Uniforms.variantIndex sv = Uniforms.variantIndex u
        then Layer.copyValue sv u else u) = Uniforms.uDefault u
      rw [if_pos hi, copyValue_default]
    · show Uniforms.uDefault (if Uniforms.variantIndex sv = Uniforms.variantIndex u
        then Layer.copyValue sv u else u) = Uniforms.uDefault u
      rw [if_neg hi]

/-- The restore step keeps the variant tag. -/
theorem restoreOne_index (saved : List (String × Uniforms.UniformVariant))
    (u : Uniforms.UniformVariant) :
    Uniforms.variantIndex (Layer.restoreOne saved u) = Uniforms.variantIndex u := by
  unfold Layer.restoreOne
  cases hl : Layer.lookupSaved saved (Uniforms.uName u) with
  | none => rfl
  | some sv =>
    by_cases hi : Uniforms.variantIndex sv = Uniforms.variantIndex u
    · show Uniforms.variantIndex (if Uniforms.variantIndex sv = Uniforms.variantIndex u
        then Layer.copyValue sv u else u) = Uniforms.variantIndex u
      rw [if_pos hi, copyValue_index]
    · show Uniforms.variantIndex (if Uniforms.variantIndex sv = Uniforms.variantIndex u
        then Layer.copyValue sv u else u) = Uniforms.variantIndex u
      rw [if_neg hi]

/-- Looking up the key just inserted returns the inserted descriptor. -/
theorem insertSaved_lookup_eq (m : List (String × Uniforms.UniformVariant)) (k : String)
    (u : Uniforms.UniformVariant) :
    Layer.lookupSaved (Layer.insertSaved m k u) k = some u := by
  induction m with
  | nil => simp [Layer.insertSaved, Layer.lookupSaved]
  | cons e rest ih =>
    obtain ⟨k2, v2⟩ := e
    by_cases he : k2 = k
    · simp [Layer.insertSaved, Layer.lookupSaved, he]
    · simp [Layer.insertSaved, Layer.lookupSaved, he, ih]

/-- Inserting under a different key does not change a lookup. -/
theorem insertSaved_lookup_ne (m : List (String × Uniforms.UniformVariant))
    (k k2 : String) (u : Uniforms.UniformVariant) (hne : k2 ≠ k) :
    Layer.lookupSaved (Layer.insertSaved m k u) k2 = Layer.lookupSaved m k2 := by
  induction m with
  | nil => simp [Layer.insertSaved, Layer.lookupSaved, Ne.symm hne]
  | cons e rest ih =>
    obtain ⟨k0, v0⟩ := e
    by_cases he : k0 = k
    · subst he
      simp [Layer.insertSaved, Layer.lookupSaved, Ne.symm hne]
    · simp [Layer.insertSaved, Layer.lookupSaved, he, ih]

/-- The saved-value map of a snoc is one insertion into the shorter map. -/
theorem savedMap_snoc (old : List Uniforms.UniformVariant) (u : Uniforms.UniformVariant) :
    Layer.savedMap (old ++ [u]) =
      Layer.insertSaved (Layer.savedMap old) (Uniforms.uName u) u := by
  unfold Layer.savedMap
  rw [List.foldl_append]
  rfl

/-- A name carried by no previous descriptor is absent from the saved map. -/
theorem savedMap_lookup_none (old : List Uniforms.UniformVariant) (n : String)
    (h : ∀ u ∈ old, Uniforms.uName u ≠ n) :
    Layer.lookupSaved (Layer.savedMap old) n = none := by
  induction old using List.reverseRecOn with
  | nil => rfl
  | append_singleton old u ih =>
    rw [savedMap_snoc,
      insertSaved_lookup_ne _ _ _ _ (fun he => h u (by simp) he.symm)]
    exact ih (fun v hv => h v (List.mem_append_left _ hv))

/-- With duplicate-free names, the saved map returns exactly the previous
descriptor of the looked-up name. -/
theorem savedMap_lookup_mem (old : List Uniforms.UniformVariant)
    (hnd : (old.map Uniforms.uName).Nodup) (u0 : Uniforms.UniformVariant)
    (h : u0 ∈ old) :
    Layer.lookupSaved (Layer.savedMap old) (Uniforms.uName u0) = some u0 := by
  induction old using List.reverseRecOn with
  | nil => cases h
  | append_singleton old u ih =>
    rw [savedMap_snoc]
    rw [List.map_append] at hnd
    have hsplit := List.nodup_append.mp hnd
    have h1 : (old.map Uniforms.uName).Nodup := hsplit.1
    have hnotin : Uniforms.uName u ∉ old.map Uniforms.uName :=
      fun hmem => hsplit.2.2 hmem (List.mem_singleton_self _)
    rcases List.mem_append.mp h with hmem | hmem
    · have hne : Uniforms.uName u0 ≠ Uniforms.uName u := by
        intro he
        exact hnotin (he ▸ List.mem_map_of_mem _ hmem)
      rw [insertSaved_lookup_ne _ _ _ _ hne]
      exact ih h1 hmem
    · obtain rfl : u0 = u := by simpa using hmem
      exact insertSaved_lookup_eq _ _ _

/-- C3: after a successful `loadShader` over a previous collection with
duplicate-free names, every descriptor of the new collection whose name
carries a previous descriptor of the identical variant tag keeps that
descriptor's value, and every other descriptor sits at its own default
(no name match, or a name match whose variant tag changed). -/
theorem c3_value_merge (w : Layer.World) (s : Layer.LayerState) (path : String)
    (s2 : Layer.LayerState)
    (hnd : (s.uniforms.uniforms.map Uniforms.uName).Nodup)
    (h : Layer.loadShader w s path = (true, s2)) :
    ∀ u ∈ s2.uniforms.uniforms,
      ((∃ old ∈ s.uniforms.uniforms, Uniforms.uName old = Uniforms.uName u ∧
          Uniforms.variantIndex old = Uniforms.variantIndex u) →
        ∃ old ∈ s.uniforms.uniforms, Uniforms.uName old = Uniforms.uName u ∧
          Uniforms.variantIndex old = Uniforms.variantIndex u ∧
          Uniforms.uValue u = Uniforms.uValue old) ∧
      ((¬ ∃ old ∈ s.uniforms.uniforms, Uniforms.uName old = Uniforms.uName u ∧
          Uniforms.variantIndex old = Uniforms.variantIndex u) →
        Uniforms.uValue u = Uniforms.uDefault u) := by
  by_cases hlk : (Pre.FS.lookup w.fs path).isNone = true
  · simp only [Layer.loadShader, hlk, if_true] at h
    injection h with h1 h2
    exact absurd h1 (by decide)
  · by_cases hpre : (Pre.process w.fs path).success = false
    · simp only [Layer.loadShader, hlk, hpre, if_true, if_false] at h
      injection h with h1 h2
      exact absurd h1 (by decide)
    · by_cases hcomp : (w.compile (Pre.process w.fs path).source).success = false
      · simp only [Layer.loadShader, hlk, hpre, hcomp, if_true, if_false] at h
        injection h with h1 h2
        exact absurd h1 (by decide)
      · simp only [Layer.loadShader, hlk, hpre, hcomp, if_true, if_false] at h
        injection h with h1 h2
        subst h2
        intro u hu
        replace hu : u ∈ ((Uniforms.parseMatches
            (w.scan (Pre.process w.fs path).source)).uniforms.map
            (Layer.restoreOne (Layer.savedMap s.uniforms.uniforms))).map
            (Layer.setLoc w (w.compile (Pre.process w.fs path).source).programId) := hu
        rcases List.mem_map.mp hu with ⟨v1, hv1, rfl⟩
        rcases List.mem_map.mp hv1 with ⟨v, hv, rfl⟩
        replace hv : v ∈ (w.scan (Pre.process w.fs path).source).filterMap
          Uniforms.dispatchMatch := hv
        rcases List.mem_filterMap.mp hv with ⟨m, hm, hdm⟩
        have hvd : Uniforms.uValue v = Uniforms.uDefault v := dispatch_value_default m v hdm
        constructor
        · rintro ⟨old0, hold0, hname, hidx⟩
          have hnames : Uniforms.uName old0 = Uniforms.uName v := by
            rw [hname, setLoc_name, restoreOne_name]
          have hlks : Layer.lookupSaved (Layer.savedMap s.uniforms.uniforms)
              (Uniforms.uName v) = some old0 := by
            rw [← hnames]
            exact savedMap_lookup_mem _ hnd old0 hold0
          have hidx2 : Uniforms.variantIndex old0 = Uniforms.variantIndex v := by
            rw [hidx, setLoc_index, restoreOne_index]
          have hro : Layer.restoreOne (Layer.savedMap s.uniforms.uniforms) v =
              Layer.copyValue old0 v := by
            simp [Layer.restoreOne, hlks, hidx2]
          refine ⟨old0, hold0, hname, hidx, ?_⟩
          rw [setLoc_value, hro, copyValue_value old0 v hidx2]
        · intro hnex
          have hro : Layer.restoreOne (Layer.savedMap s.uniforms.uniforms) v = v := by
            by_cases hname : ∃ old0 ∈ s.uniforms.uniforms,
                Uniforms.uName old0 = Uniforms.uName v
            · obtain ⟨old0, hold0, hn0⟩ := hname
              have hlks : Layer.lookupSaved (Layer.savedMap s.uniforms.uniforms)
                  (Uniforms.uName v) = some old0 := by
                rw [← hn0]
                exact savedMap_lookup_mem _ hnd old0 hold0
              have hidxne : Uniforms.variantIndex old0 ≠ Uniforms.variantIndex v := by
                intro he
                exact hnex ⟨old0, hold0,
                  by rw [setLoc_name, restoreOne_name]; exact hn0,
                  by rw [setLoc_index, restoreOne_index]; exact he⟩
              simp [Layer.restoreOne, hlks, hidxne]
            · push_neg at hname
              have hlks : Layer.lookupSaved (Layer.savedMap s.uniforms.uniforms)
                  (Uniforms.uName v) = none := savedMap_lookup_none _ _ hname
              simp [Layer.restoreOne, hlks]
          rw [setLoc_value, setLoc_default, hro, hvd]

/-- C3 witness: reloading over the previous state whose `uSpeed` float was
set to `3.5` keeps `3.5` in the merged descriptor, by the theorem applied
to the concrete merge fixture. -/
theorem c3_witness :
    ∃ old ∈ sMergeW.uniforms.uniforms,
      Uniforms.uValue ((Layer.loadShader wMergeW sMergeW
          "m.glsl").2.uniforms.uniforms.getD 0 (Uniforms.UniformVariant.float {})) =
        Uniforms.uValue old ∧
      Uniforms.uValue old = Uniforms.UValue.f (mkRat 7 2) := by
  have h := c3_value_merge wMergeW sMergeW "m.glsl"
    (Layer.loadShader wMergeW sMergeW "m.glsl").2 (by decide) (by decide)
  obtain ⟨himp, _⟩ := h ((Layer.loadShader wMergeW sMergeW
    "m.glsl").2.uniforms.uniforms.getD 0 (Uniforms.UniformVariant.float {})) (by decide)
  obtain ⟨old, hold, _, _, hv⟩ := himp (by decide)
  refine ⟨old, hold, hv, ?_⟩
  have : old = Uniforms.UniformVariant.float
      { name := "uSpeed", value := mkRat 7 2, defaultValue := 1 } := by
    simpa [sMergeW] using hold
  rw [this]
  rfl

/-! ## Claim C9 — reload idempotence on unchanged timestamps -/

/-- C9: when the main file's timestamp matches the stored one and every
entry of the dependency snapshot matches the current timestamp of its file,
`checkAndReload` returns `false` with the state untouched (no `loadShader`
call is reached), and polling it any number of times leaves the state
fixed. -/
theorem c9_noop (w : Layer.World) (s : Layer.LayerState)
    (hmain : w.mtime s.shaderPath = s.lastModTime)
    (hdeps : ∀ d t, Layer.lookupMT s.dependencyModTimes d = some t → w.mtime d = t) :
    Layer.checkAndReload w s = (false, s) ∧ ∀ n, Layer.pollIter w n s = s := by
  have hstale : Layer.findStale w s = none := by
    apply List.find?_eq_none.mpr
    intro d _
    cases hlk : Layer.lookupMT s.dependencyModTimes d with
    | none => simp [hlk]
    | some t => simp [hlk, hdeps d t hlk]
  have hcr : Layer.checkAndReload w s = (false, s) := by
    unfold Layer.checkAndReload
    by_cases har : s.autoReload = false ∨ s.shaderPath = ""
    · simp [har]
    · simp [har, hmain, hstale]
  refine ⟨hcr, ?_⟩
  intro n
  induction n with
  | zero => rfl
  | succ n ih => simp [Layer.pollIter, hcr, ih]

/-- C9 witness: the no-op theorem applied at a concrete world whose
timestamps are all unchanged since the snapshot. -/
theorem c9_witness :
    Layer.checkAndReload wStillW sStillW = (false, sStillW) ∧
    Layer.pollIter wStillW 3 sStillW = sStillW := by
  have hd : ∀ d t, Layer.lookupMT sStillW.dependencyModTimes d = some t →
      wStillW.mtime d = t := by
    intro d t h
    simp only [sStillW, Layer.lookupMT] at h
    by_cases hd2 : "d.glsl" = d
    · rw [if_pos hd2] at h
      obtain rfl : (5 : ℤ) = t := by injection h
      rfl
    · rw [if_neg hd2] at h
      exact absurd h (by simp)
  have h := c9_noop wStillW sStillW rfl hd
  exact ⟨h.1, h.2 3⟩

/-! ## Claim C10 — an empty include file is fatal -/

/-- A string starting with a non-empty prefix is non-empty. -/
theorem append_ne_empty_left {a : String} (b : String) (h : a ≠ "") : a ++ b ≠ "" := by
  intro he
  apply h
  have hl := congrArg String.length he
  rw [String.length_append] at hl
  have h0 : a.length = 0 := by
    have he0 : ("" : String).length = 0 := rfl
    omega
  cases a with
  | mk data =>
    have hd : data.length = 0 := h0
    have : data = [] := by
      cases data with
      | nil => rfl
      | cons c cs => simp at hd
    rw [this]

/-- Pass-through of a run of text lines: expanding `ts ++ rest` when `ts`
is all text emits the joined text and continues on `rest` with the line
counter advanced, consuming one unit of fuel per line. -/
theorem processLines_text_append (fs : Pre.FS) (ts : List Pre.SrcLine) :
    ∀ fuel rest cur ln st, (∀ l ∈ ts, ∃ s, l = Pre.SrcLine.text s) →
    Pre.processLines fs (fuel + ts.length) (ts ++ rest) cur ln st =
      (Pre.processLines fs fuel rest cur (ln + ts.length) st).map
        (fun r => (r.1, Pre.textJoin ts ++ r.2)) := by
  induction ts with
  | nil =>
    intro fuel rest cur ln st _
    simp [Pre.textJoin]
  | cons l ts ih =>
    intro fuel rest cur ln st htext
    obtain ⟨s, rfl⟩ := htext l (by simp)
    simp only [List.length_cons, List.cons_append]
    show (match Pre.processLines fs (fuel + ts.length) (ts ++ rest) cur (ln + 1) st with
      | none => none
      | some (st', out) => some (st', s ++ "\n" ++ out)) = _
    rw [ih fuel rest cur (ln + 1) st (fun l hl => htext l (by simp [hl]))]
    rw [show ln + 1 + ts.length = ln + (ts.length + 1) from by omega]
    cases Pre.processLines fs fuel rest cur (ln + (ts.length + 1)) st with
    | none => rfl
    | some r =>
      simp [Pre.textJoin, String.append_assoc]

/-- C10: when the main file consists of text lines followed by an include
of an existing zero-byte file, the whole `process` call fails with the
`Failed to read include file` diagnostic — the empty read is
indistinguishable from an unreadable file. -/
theorem c10_empty_include (fs : Pre.FS) (main p : String) (ts rest : List Pre.SrcLine)
    (hmc : Pre.FS.lookup fs main = some (ts ++ .incl p :: rest))
    (htext : ∀ l ∈ ts, ∃ s, l = Pre.SrcLine.text s)
    (hp : p ≠ "")
    (hpe : Pre.FS.lookup fs p = some []) :
    (Pre.process fs main).success = false ∧
    (Pre.process fs main).errorMessage = "Failed to read include file: " ++ p := by
  have hfuel : Pre.fuelFor fs (ts ++ .incl p :: rest) =
      (rest.length + 1 + Pre.pendingWork fs Pre.initPP + 1) + ts.length := by
    simp [Pre.fuelFor]
    omega
  have hrun : Pre.processLines fs (Pre.fuelFor fs (ts ++ .incl p :: rest))
      (ts ++ .incl p :: rest) main 1 Pre.initPP =
      some ({ processedFiles := [p], dependencies := [p],
              errorMessage := "Failed to read include file: " ++ p },
            Pre.textJoin ts ++ "") := by
    rw [hfuel, processLines_text_append fs ts _ _ main 1 Pre.initPP htext]
    show (Pre.processLines fs (rest.length + 1 + Pre.pendingWork fs Pre.initPP + 1)
      (Pre.SrcLine.incl p :: rest) main (1 + ts.length) Pre.initPP).map _ = _
    rw [show Pre.processLines fs (rest.length + 1 + Pre.pendingWork fs Pre.initPP + 1)
        (Pre.SrcLine.incl p :: rest) main (1 + ts.length) Pre.initPP =
        some ({ processedFiles := [p], dependencies := [p],
                errorMessage := "Failed to read include file: " ++ p }, "") from ?_]
    · rfl
    show (if p = "" then _ else _) = _
    rw [if_neg hp]
    rw [show Pre.FS.lookup fs p = some [] from hpe]
    simp [Pre.initPP]
  have hne : "Failed to read include file: " ++ p ≠ "" :=
    append_ne_empty_left p (by decide)
  simp only [Pre.process, hmc, hrun, ne_eq, hne, not_false_eq_true, if_true]
  exact ⟨trivial, trivial⟩

/-- C10 witness: the theorem applied at a concrete file system whose main
file includes the empty `e.glsl`. -/
theorem c10_witness :
    (Pre.process fsEmptyW "main.glsl").success = false ∧
    (Pre.process fsEmptyW "main.glsl").errorMessage =
      "Failed to read include file: e.glsl" := by
  have h := c10_empty_include fsEmptyW "main.glsl" "e.glsl" [.text "x"] []
    (by decide) (by intro l hl; simp at hl; exact ⟨"x", hl⟩) (by decide) (by decide)
  exact ⟨h.1, h.2.trans (by decide)⟩

/-! ## Reachability and bookkeeping lemmas for the include preprocessor -/

/-- Nothing is reachable from an empty line list. -/
theorem touches_nil (fs : Pre.FS) (q : String) : ¬ Pre.Touches fs [] q := by
  intro h
  cases h

/-- Reachability through a text line is reachability through the rest. -/
theorem touches_cons_text (fs : Pre.FS) (s : String) (rest : List Pre.SrcLine) (q : String) :
    Pre.Touches fs (.text s :: rest) q ↔ Pre.Touches fs rest q := by
  constructor
  · intro h
    cases h with
    | later h => exact h
  · exact .later

/-- Inversion of reachability at an include line. -/
theorem touches_cons_incl (fs : Pre.FS) (p : String) (rest : List Pre.SrcLine) (q : String) :
    Pre.Touches fs (.incl p :: rest) q ↔
      q = p ∨ (∃ c, Pre.FS.lookup fs p = some c ∧ Pre.Touches fs c q) ∨
        Pre.Touches fs rest q := by
  constructor
  · intro h
    cases h with
    | here => exact Or.inl rfl
    | deeper hlk ht => exact Or.inr (Or.inl ⟨_, hlk, ht⟩)
    | later h => exact Or.inr (Or.inr h)
  · intro h
    rcases h with rfl | ⟨c, hlk, ht⟩ | h
    · exact .here q rest
    · exact .deeper hlk ht
    · exact .later h

/-- A direct include occurrence anywhere in the list is reachable. -/
theorem touches_of_mem (fs : Pre.FS) {l : List Pre.SrcLine} {q : String}
    (h : Pre.SrcLine.incl q ∈ l) : Pre.Touches fs l q := by
  induction l with
  | nil => cases h
  | cons a rest ih =>
    rcases List.mem_cons.mp h with rfl | h2
    · exact .here q rest
    · exact .later (ih h2)

/-- Reachability through an include occurrence anywhere in the list. -/
theorem touches_of_mem_lookup (fs : Pre.FS) {l cf : List Pre.SrcLine} {f q : String}
    (hm : Pre.SrcLine.incl f ∈ l) (hlk : Pre.FS.lookup fs f = some cf)
    (ht : Pre.Touches fs cf q) : Pre.Touches fs l q := by
  induction l with
  | nil => cases hm
  | cons a rest ih =>
    rcases List.mem_cons.mp hm with rfl | h2
    · exact .deeper hlk ht
    · exact .later (ih h2)

/-- Reachability is monotone under extending the line list on the left. -/
theorem touches_suffix (fs : Pre.FS) {l1 l2 : List Pre.SrcLine} {q : String}
    (hsfx : l1 <:+ l2) (ht : Pre.Touches fs l1 q) : Pre.Touches fs l2 q := by
  obtain ⟨pre, rfl⟩ := hsfx
  induction pre with
  | nil => exact ht
  | cons a pre ih => exact .later ih

/-- A successful lookup exhibits a member of the file-system list. -/
theorem lookup_mem {fs : Pre.FS} {p : String} {c : List Pre.SrcLine}
    (h : Pre.FS.lookup fs p = some c) : (p, c) ∈ fs := by
  induction fs with
  | nil => exact absurd h (by simp [Pre.FS.lookup])
  | cons e rest ih =>
    rw [show Pre.FS.lookup (e :: rest) p =
        (if e.1 = p then some e.2 else Pre.FS.lookup rest p) from rfl] at h
    by_cases he : e.1 = p
    · rw [if_pos he] at h
      injection h with h2
      have hep : e = (p, c) := by
        obtain ⟨k, v⟩ := e
        simp only at he h2
        rw [he, h2]
      rw [hep]
      exact List.mem_cons_self _ _
    · rw [if_neg he] at h
      exact List.mem_cons_of_mem _ (ih h)

/-- A successful lookup puts the path among the deduplicated path list. -/
theorem lookup_mem_paths {fs : Pre.FS} {p : String} {c : List Pre.SrcLine}
    (h : Pre.FS.lookup fs p = some c) : p ∈ Pre.fsPaths fs := by
  have := lookup_mem h
  unfold Pre.fsPaths
  rw [List.mem_dedup]
  exact List.mem_map.mpr ⟨(p, c), this, rfl⟩

/-- Validity transfers from the file system to any looked-up file. -/
theorem fsOK_lookup {fs : Pre.FS} {f : String} {cf : List Pre.SrcLine}
    (hok : Pre.fsOK fs = true) (h : Pre.FS.lookup fs f = some cf) :
    Pre.linesOK fs cf = true := by
  have hm := lookup_mem h
  exact List.all_eq_true.mp hok _ hm

/-- Unpacking `linesOK` at one include occurrence. -/
theorem linesOK_mem {fs : Pre.FS} {l : List Pre.SrcLine} {p : String}
    (h : Pre.linesOK fs l = true) (hm : Pre.SrcLine.incl p ∈ l) :
    p ≠ "" ∧ ∃ c, Pre.FS.lookup fs p = some c ∧ c ≠ [] := by
  have := List.all_eq_true.mp h _ hm
  simp only [bne_iff_ne, ne_eq, Bool.and_eq_true] at this
  obtain ⟨h1, h2⟩ := this
  refine ⟨by simpa using h1, ?_⟩
  cases hlk : Pre.FS.lookup fs p with
  | none => rw [hlk] at h2; exact absurd h2 (by simp)
  | some c =>
    rw [hlk] at h2
    exact ⟨c, rfl, by simpa using h2⟩

/-- Equation for a text line at positive fuel. -/
theorem processLines_cons_text (fs : Pre.FS) (fuel : Nat) (s : String)
    (rest : List Pre.SrcLine) (cur : String) (ln : Nat) (st : Pre.PPState) :
    Pre.processLines fs (fuel + 1) (.text s :: rest) cur ln st =
      (Pre.processLines fs fuel rest cur (ln + 1) st).map
        (fun r => (r.1, s ++ "\n" ++ r.2)) := by
  show (match Pre.processLines fs fuel rest cur (ln + 1) st with
    | none => none
    | some (st', out) => some (st', s ++ "\n" ++ out)) = _
  cases Pre.processLines fs fuel rest cur (ln + 1) st with
  | none => rfl
  | some r =>
    obtain ⟨st2, out2⟩ := r
    rfl

/-- The visited-path set only ever grows. -/
theorem processLines_mono (fs : Pre.FS) :
    ∀ fuel lines cur ln st st' out,
      Pre.processLines fs fuel lines cur ln st = some (st', out) →
      ∀ x, x ∈ st.processedFiles → x ∈ st'.processedFiles := by
  intro fuel
  induction fuel with
  | zero =>
    intro lines cur ln st st' out heq
    exact absurd heq (by simp [Pre.processLines])
  | succ fuel ih =>
    intro lines cur ln st st' out heq
    cases lines with
    | nil =>
      simp only [Pre.processLines] at heq
      cases heq
      exact fun x hx => hx
    | cons l rest =>
      cases l with
      | text s =>
        rw [processLines_cons_text] at heq
        cases hrec : Pre.processLines fs fuel rest cur (ln + 1) st with
        | none => rw [hrec] at heq; exact absurd heq (by simp)
        | some r =>
          rw [hrec] at heq
          simp only [Option.map_some'] at heq
          cases heq
          exact ih rest cur (ln + 1) st r.1 r.2 hrec
      | incl p =>
        simp only [Pre.processLines] at heq
        split at heq
        · cases heq
          exact fun x hx => hx
        · split at heq
          · cases heq
            exact fun x hx => hx
          · split at heq
            · cases heq
              exact fun x hx => hx
            · split at heq
              · cases heq
                exact fun x hx => List.mem_cons_of_mem _ hx
              · split at heq
                · exact absurd heq (by simp)
                · next st2 processed hinner =>
                  have h1 := ih _ _ _ _ _ _ hinner
                  split at heq
                  · cases heq
                    exact fun x hx => h1 x (List.mem_cons_of_mem _ hx)
                  · split at heq
                    · exact absurd heq (by simp)
                    · next st3 out3 hcont =>
                      have h2 := ih _ _ _ _ _ _ hcont
                      cases heq
                      exact fun x hx => h2 x (h1 x (List.mem_cons_of_mem _ hx))

/-- Every path visited during an expansion was either already visited or is
reachable from the expanded lines. -/
theorem processLines_sub (fs : Pre.FS) :
    ∀ fuel lines cur ln st st' out,
      Pre.processLines fs fuel lines cur ln st = some (st', out) →
      ∀ x, x ∈ st'.processedFiles →
        x ∈ st.processedFiles ∨ Pre.Touches fs lines x := by
  intro fuel
  induction fuel with
  | zero =>
    intro lines cur ln st st' out heq
    exact absurd heq (by simp [Pre.processLines])
  | succ fuel ih =>
    intro lines cur ln st st' out heq
    cases lines with
    | nil =>
      simp only [Pre.processLines] at heq
      cases heq
      exact fun x hx => Or.inl hx
    | cons l rest =>
      cases l with
      | text s =>
        rw [processLines_cons_text] at heq
        cases hrec : Pre.processLines fs fuel rest cur (ln + 1) st with
        | none => rw [hrec] at heq; exact absurd heq (by simp)
        | some r =>
          rw [hrec] at heq
          simp only [Option.map_some'] at heq
          cases heq
          intro x hx
          rcases ih rest cur (ln + 1) st r.1 r.2 hrec x hx with h | h
          · exact Or.inl h
          · exact Or.inr ((touches_cons_text fs s rest x).mpr h)
      | incl p =>
        simp only [Pre.processLines] at heq
        split at heq
        · cases heq
          exact fun x hx => Or.inl hx
        · split at heq
          · cases heq
            exact fun x hx => Or.inl hx
          · next content hlk =>
            split at heq
            · cases heq
              exact fun x hx => Or.inl hx
            · split at heq
              · cases heq
                intro x hx
                rcases List.mem_cons.mp hx with rfl | hx2
                · exact Or.inr (.here x rest)
                · exact Or.inl hx2
              · split at heq
                · exact absurd heq (by simp)
                · next st2 processed hinner =>
                  split at heq
                  · cases heq
                    intro x hx
                    rcases ih _ _ _ _ _ _ hinner x hx with h | h
                    · rcases List.mem_cons.mp h with rfl | h2
                      · exact Or.inr (.here x rest)
                      · exact Or.inl h2
                    · exact Or.inr (.deeper hlk h)
                  · split at heq
                    · exact absurd heq (by simp)
                    · next st3 out3 hcont =>
                      cases heq
                      intro x hx
                      rcases ih _ _ _ _ _ _ hcont x hx with h | h
                      · rcases ih _ _ _ _ _ _ hinner x h with h2 | h2
                        · rcases List.mem_cons.mp h2 with rfl | h3
                          · exact Or.inr (.here x rest)
                          · exact Or.inl h3
                        · exact Or.inr (.deeper hlk h2)
                      · exact Or.inr (.later h)

/-- On a run that ends without error, every file reachable from the
expanded lines was fresh when the run started: had it been in the
visited-path set already, the circular-include check would have fired. -/
theorem processLines_fresh (fs : Pre.FS) :
    ∀ fuel lines cur ln st st' out,
      Pre.processLines fs fuel lines cur ln st = some (st', out) →
      st'.errorMessage = "" →
      ∀ q, Pre.Touches fs lines q → q ∉ st.processedFiles := by
  intro fuel
  induction fuel with
  | zero =>
    intro lines cur ln st st' out heq
    exact absurd heq (by simp [Pre.processLines])
  | succ fuel ih =>
    intro lines cur ln st st' out heq hok
    cases lines with
    | nil =>
      intro q hq
      exact absurd hq (touches_nil fs q)
    | cons l rest =>
      cases l with
      | text s =>
        rw [processLines_cons_text] at heq
        cases hrec : Pre.processLines fs fuel rest cur (ln + 1) st with
        | none => rw [hrec] at heq; exact absurd heq (by simp)
        | some r =>
          rw [hrec] at heq
          simp only [Option.map_some'] at heq
          cases heq
          intro q hq
          exact ih rest cur (ln + 1) st r.1 r.2 hrec hok q
            ((touches_cons_text fs s rest q).mp hq)
      | incl p =>
        simp only [Pre.processLines] at heq
        split at heq
        · cases heq
          exact absurd hok (append_ne_empty_left _
            (append_ne_empty_left _ (append_ne_empty_left _ (by decide))))
        · split at heq
          · cases heq
            exact absurd hok (append_ne_empty_left _ (append_ne_empty_left _
              (append_ne_empty_left _ (append_ne_empty_left _
                (append_ne_empty_left _ (append_ne_empty_left _ (by decide)))))))
          · next content hlk =>
            split at heq
            · cases heq
              exact absurd hok (append_ne_empty_left _ (append_ne_empty_left _
                (append_ne_empty_left _ (append_ne_empty_left _
                  (append_ne_empty_left _ (append_ne_empty_left _ (by decide)))))))
            · next hmem =>
              split at heq
              · cases heq
                exact absurd hok (append_ne_empty_left _ (by decide))
              · split at heq
                · exact absurd heq (by simp)
                · next st2 processed hinner =>
                  split at heq
                  · next herr =>
                    cases heq
                    exact absurd hok herr
                  · next herr =>
                    have hok2 : st2.errorMessage = "" := by
                      by_contra hc
                      exact herr hc
                    split at heq
                    · exact absurd heq (by simp)
                    · next st3 out3 hcont =>
                      cases heq
                      intro q hq
                      rcases (touches_cons_incl fs p rest q).mp hq with rfl | ⟨c, hlkq, ht⟩ | ht
                      · exact hmem
                      · have hceq : c = content := by
                          rw [hlk] at hlkq
                          exact (Option.some.inj hlkq).symm
                        subst hceq
                        have := ih _ _ _ _ _ _ hinner hok2 q ht
                        intro hqs
                        exact this (List.mem_cons_of_mem _ hqs)
                      · have := ih _ _ _ _ _ _ hcont hok q ht
                        intro hqs
                        exact this (processLines_mono fs _ _ _ _ _ _ _ hinner q
                          (List.mem_cons_of_mem _ hqs))

/-- On a run that ends without error, no reachable file includes itself
transitively: its own expansion would revisit it and fail circular. -/
theorem processLines_no_self (fs : Pre.FS) :
    ∀ fuel lines cur ln st st' out,
      Pre.processLines fs fuel lines cur ln st = some (st', out) →
      st'.errorMessage = "" →
      ∀ q cq, Pre.Touches fs lines q → Pre.FS.lookup fs q = some cq →
        ¬ Pre.Touches fs cq q := by
  intro fuel
  induction fuel with
  | zero =>
    intro lines cur ln st st' out heq
    exact absurd heq (by simp [Pre.processLines])
  | succ fuel ih =>
    intro lines cur ln st st' out heq hok
    cases lines with
    | nil =>
      intro q cq hq
      exact absurd hq (touches_nil fs q)
    | cons l rest =>
      cases l with
      | text s =>
        rw [processLines_cons_text] at heq
        cases hrec : Pre.processLines fs fuel rest cur (ln + 1) st with
        | none => rw [hrec] at heq; exact absurd heq (by simp)
        | some r =>
          rw [hrec] at heq
          simp only [Option.map_some'] at heq
          cases heq
          intro q cq hq
          exact ih rest cur (ln + 1) st r.1 r.2 hrec hok q cq
            ((touches_cons_text fs s rest q).mp hq)
      | incl p =>
        simp only [Pre.processLines] at heq
        split at heq
        · cases heq
          exact absurd hok (append_ne_empty_left _
            (append_ne_empty_left _ (append_ne_empty_left _ (by decide))))
        · split at heq
          · cases heq
            exact absurd hok (append_ne_empty_left _ (append_ne_empty_left _
              (append_ne_empty_left _ (append_ne_empty_left _
                (append_ne_empty_left _ (append_ne_empty_left _ (by decide)))))))
          · next content hlk =>
            split at heq
            · cases heq
              exact absurd hok (append_ne_empty_left _ (append_ne_empty_left _
                (append_ne_empty_left _ (append_ne_empty_left _
                  (append_ne_empty_left _ (append_ne_empty_left _ (by decide)))))))
            · next hmem =>
              split at heq
              · cases heq
                exact absurd hok (append_ne_empty_left _ (by decide))
              · split at heq
                · exact absurd heq (by simp)
                · next st2 processed hinner =>
                  split at heq
                  · next herr =>
                    cases heq
                    exact absurd hok herr
                  · next herr =>
                    have hok2 : st2.errorMessage = "" := by
                      by_contra hc
                      exact herr hc
                    split at heq
                    · exact absurd heq (by simp)
                    · next st3 out3 hcont =>
                      cases heq
                      intro q cq hq hlkq
                      rcases (touches_cons_incl fs p rest q).mp hq with rfl | ⟨c, hlkc, ht⟩ | ht
                      · have hceq : cq = content := by
                          rw [hlk] at hlkq
                          exact (Option.some.inj hlkq).symm
                        subst hceq
                        intro htc
                        exact processLines_fresh fs _ _ _ _ _ _ _ hinner hok2 q htc
                          (List.mem_cons_self _ _)
                      · have hceq : c = content := by
                          rw [hlk] at hlkc
                          exact (Option.some.inj hlkc).symm
                        subst hceq
                        exact ih _ _ _ _ _ _ hinner hok2 q cq ht hlkq
                      · exact ih _ _ _ _ _ _ hcont hok q cq ht hlkq

/-- Sum over a filter shrinks when the predicate gets (pointwise) stronger. -/
theorem filter_imp_sum_le {α : Type} (f : α → Nat) (pred1 pred2 : α → Bool)
    (himp : ∀ x, pred2 x = true → pred1 x = true) :
    ∀ l : List α, ((l.filter pred2).map f).sum ≤ ((l.filter pred1).map f).sum := by
  intro l
  induction l with
  | nil => simp
  | cons a rest ih =>
    by_cases h2 : pred2 a = true
    · rw [List.filter_cons_of_pos h2, List.filter_cons_of_pos (himp a h2)]
      simp only [List.map_cons, List.sum_cons]
      omega
    · rw [List.filter_cons_of_neg (by simpa using h2)]
      by_cases h1 : pred1 a = true
      · rw [List.filter_cons_of_pos h1]
        simp only [List.map_cons, List.sum_cons]
        omega
      · rw [List.filter_cons_of_neg (by simpa using h1)]
        exact ih

/-- Splitting a filtered sum at one distinguished element of a duplicate-free
list, when the two predicates differ exactly there. -/
theorem filter_sum_split {α : Type} [DecidableEq α] (f : α → Nat)
    (pred1 pred2 : α → Bool) (p : α)
    (h1 : pred1 p = true) (h2 : pred2 p = false)
    (hagree : ∀ x, x ≠ p → pred1 x = pred2 x) :
    ∀ l : List α, l.Nodup → p ∈ l →
      ((l.filter pred1).map f).sum = f p + ((l.filter pred2).map f).sum := by
  intro l
  induction l with
  | nil =>
    intro _ hp
    cases hp
  | cons a rest ih =>
    intro hnd hp
    rcases List.mem_cons.mp hp with rfl | hp2
    · have hnp : p ∉ rest := (List.nodup_cons.mp hnd).1
      have hfeq : rest.filter pred1 = rest.filter pred2 := by
        apply List.filter_congr
        intro x hx
        exact hagree x (fun he => hnp (he ▸ hx))
      rw [List.filter_cons_of_pos h1, List.filter_cons_of_neg (by simp [h2]), hfeq]
      simp
    · have hne : a ≠ p := fun he => (List.nodup_cons.mp hnd).1 (he ▸ hp2)
      have heq := hagree a hne
      have ih2 := ih (List.nodup_cons.mp hnd).2 hp2
      by_cases hpa : pred1 a = true
      · rw [List.filter_cons_of_pos hpa, List.filter_cons_of_pos (heq ▸ hpa)]
        simp only [List.map_cons, List.sum_cons]
        omega
      · rw [List.filter_cons_of_neg (by simpa using hpa),
          List.filter_cons_of_neg (by simp [← heq]; simpa using hpa)]
        exact ih2

/-- Visiting a fresh file carves its cost out of the pending work. -/
theorem pendingWork_insert (fs : Pre.FS) (st : Pre.PPState) (p : String)
    (content : List Pre.SrcLine) (hlk : Pre.FS.lookup fs p = some content)
    (hmem : p ∉ st.processedFiles) (st' : Pre.PPState)
    (hst' : st'.processedFiles = p :: st.processedFiles) :
    Pre.pendingWork fs st = content.length + 1 + Pre.pendingWork fs st' := by
  unfold Pre.pendingWork
  rw [hst']
  have hsplit := filter_sum_split
    (fun q => ((Pre.FS.lookup fs q).getD []).length + 1)
    (fun q => decide (¬ q ∈ st.processedFiles))
    (fun q => decide (¬ q ∈ p :: st.processedFiles))
    p (by simpa using hmem) (by simp)
    (fun x hx => by simp [List.mem_cons, hx])
    (Pre.fsPaths fs) (List.nodup_dedup _) (lookup_mem_paths hlk)
  rw [hsplit]
  simp [hlk]

/-- Pending work is antitone in the visited-path set. -/
theorem pendingWork_mono (fs : Pre.FS) (st st' : Pre.PPState)
    (hsub : ∀ x, x ∈ st.processedFiles → x ∈ st'.processedFiles) :
    Pre.pendingWork fs st' ≤ Pre.pendingWork fs st := by
  unfold Pre.pendingWork
  apply filter_imp_sum_le
  intro x hx
  simp only [decide_eq_true_eq] at hx ⊢
  exact fun hmem => hx (hsub x hmem)

/-- Fuel adequacy: one unit per line of the current file plus the pending
work of the not-yet-visited files always suffices, so the C++ recursion
(which has no fuel) terminates and the model never reports exhaustion. -/
theorem processLines_enough (fs : Pre.FS) :
    ∀ fuel lines cur ln st,
      lines.length + 1 + Pre.pendingWork fs st ≤ fuel →
      (Pre.processLines fs fuel lines cur ln st).isSome = true := by
  intro fuel
  induction fuel with
  | zero =>
    intro lines cur ln st h
    exact absurd h (by omega)
  | succ fuel ih =>
    intro lines cur ln st h
    cases lines with
    | nil => simp [Pre.processLines]
    | cons l rest =>
      cases l with
      | text s =>
        rw [processLines_cons_text]
        have hrec := ih rest cur (ln + 1) st (by simp at h ⊢; omega)
        obtain ⟨r, hr⟩ := Option.isSome_iff_exists.mp hrec
        rw [hr]
        rfl
      | incl p =>
        simp only [Pre.processLines]
        split
        · rfl
        · split
          · rfl
          · next content hlk =>
            split
            · rfl
            · next hmem =>
              split
              · rfl
              · next hcne =>
                have hsplit := pendingWork_insert fs st p content hlk hmem
                  { st with processedFiles := p :: st.processedFiles,
                            dependencies := st.dependencies ++ [p] } rfl
                have hin := ih content p 1
                  { st with processedFiles := p :: st.processedFiles,
                            dependencies := st.dependencies ++ [p] }
                  (by
                    simp only [List.length_cons] at h
                    omega)
                obtain ⟨r2, hr2⟩ := Option.isSome_iff_exists.mp hin
                obtain ⟨st2, processed⟩ := r2
                simp only [hr2]
                split
                · rfl
                · have hmono := processLines_mono fs _ _ _ _ _ _ _ hr2
                  have hpw2 : Pre.pendingWork fs st2 ≤ Pre.pendingWork fs
                      { st with processedFiles := p :: st.processedFiles,
                                dependencies := st.dependencies ++ [p] } :=
                    pendingWork_mono fs _ _ hmono
                  have hcont := ih rest cur (ln + 1) st2 (by
                    simp only [List.length_cons] at h
                    omega)
                  obtain ⟨r3, hr3⟩ := Option.isSome_iff_exists.mp hcont
                  obtain ⟨st3, out3⟩ := r3
                  simp only [hr3]
                  rfl

/-- Under a valid file system, the only failure an expansion can produce is
the circular-include diagnostic. -/
theorem processLines_errors (fs : Pre.FS) (hfs : Pre.fsOK fs = true) :
    ∀ fuel lines cur ln st st' out ccur,
      Pre.FS.lookup fs cur = some ccur → lines <:+ ccur →
      st.errorMessage = "" →
      Pre.processLines fs fuel lines cur ln st = some (st', out) →
      st'.errorMessage = "" ∨
        ∃ sfx, st'.errorMessage = "Circular include detected: " ++ sfx := by
  intro fuel
  induction fuel with
  | zero =>
    intro lines cur ln st st' out ccur _ _ _ heq
    exact absurd heq (by simp [Pre.processLines])
  | succ fuel ih =>
    intro lines cur ln st st' out ccur hcur hsfx hst heq
    cases lines with
    | nil =>
      simp only [Pre.processLines] at heq
      cases heq
      exact Or.inl hst
    | cons l rest =>
      have hrest : rest <:+ ccur := (List.suffix_cons l rest).trans hsfx
      cases l with
      | text s =>
        rw [processLines_cons_text] at heq
        cases hrec : Pre.processLines fs fuel rest cur (ln + 1) st with
        | none => rw [hrec] at heq; exact absurd heq (by simp)
        | some r =>
          rw [hrec] at heq
          simp only [Option.map_some'] at heq
          cases heq
          exact ih rest cur (ln + 1) st r.1 r.2 ccur hcur hrest hst hrec
      | incl p =>
        have hmemc : Pre.SrcLine.incl p ∈ ccur := hsfx.subset (List.mem_cons_self _ _)
        obtain ⟨hpne, c, hlkc, hcne⟩ := linesOK_mem (fsOK_lookup hfs hcur) hmemc
        simp only [Pre.processLines] at heq
        split at heq
        · next hp0 => exact absurd hp0 hpne
        · split at heq
          · next hnone => rw [hnone] at hlkc; exact absurd hlkc (by simp)
          · next content hlk =>
            split at heq
            · cases heq
              refine Or.inr ⟨p ++ (" (in " ++ (cur ++ (" at line " ++ (toString ln ++ ")")))), ?_⟩
              simp [String.append_assoc]
            · next hmem =>
              split at heq
              · next hc0 =>
                have : c = content := by
                  rw [hlk] at hlkc
                  exact (Option.some.inj hlkc).symm
                subst this
                exact absurd hc0 hcne
              · split at heq
                · exact absurd heq (by simp)
                · next st2 processed hinner =>
                  have hinner2 := ih content p 1
                    { st with processedFiles := p :: st.processedFiles,
                              dependencies := st.dependencies ++ [p] }
                    st2 processed content hlk (List.suffix_refl _) hst hinner
                  split at heq
                  · next herr =>
                    cases heq
                    rcases hinner2 with h | h
                    · exact absurd h herr
                    · exact Or.inr h
                  · next herr =>
                    have hok2 : st2.errorMessage = "" := by
                      by_contra hc
                      exact herr hc
                    split at heq
                    · exact absurd heq (by simp)
                    · next st3 out3 hcont =>
                      cases heq
                      exact ih rest cur (ln + 1) st2 _ _ ccur hcur hrest hok2 hcont

/-- A chain in a list keeps being a chain when the list grows on the left. -/
theorem chainP_cons_weaken (fs : Pre.FS) (a : Pre.SrcLine) (l : List Pre.SrcLine)
    (ch : List String) (q : String) (h : Pre.ChainP fs l ch q) :
    Pre.ChainP fs (a :: l) ch q := by
  cases ch with
  | nil => exact List.mem_cons_of_mem _ h
  | cons f t =>
    obtain ⟨hm, cf, hlk, hch⟩ := h
    exact ⟨List.mem_cons_of_mem _ hm, cf, hlk, hch⟩

/-- Reachability is exactly the existence of an explicit include chain. -/
theorem touches_iff_chain (fs : Pre.FS) (l : List Pre.SrcLine) (q : String) :
    Pre.Touches fs l q ↔ ∃ ch, Pre.ChainP fs l ch q := by
  constructor
  · intro h
    induction h with
    | here p rest => exact ⟨[], List.mem_cons_self _ _⟩
    | deeper hlk _ ih =>
      obtain ⟨ch, hch⟩ := ih
      exact ⟨_ :: ch, List.mem_cons_self _ _, _, hlk, hch⟩
    | later _ ih =>
      obtain ⟨ch, hch⟩ := ih
      exact ⟨ch, chainP_cons_weaken fs _ _ ch _ hch⟩
  · rintro ⟨ch, hch⟩
    induction ch generalizing l q with
    | nil => exact touches_of_mem fs hch
    | cons f t ih =>
      obtain ⟨hm, cf, hlk, hch2⟩ := hch
      exact touches_of_mem_lookup fs hm hlk (ih cf q hch2)

/-- Decomposing a chain at its last step: the chain reaches `f`, whose
content holds a direct occurrence of `q`. -/
theorem chainP_snoc (fs : Pre.FS) (t : List String) :
    ∀ (l : List Pre.SrcLine) (f q : String),
      Pre.ChainP fs l (t ++ [f]) q ↔
        Pre.ChainP fs l t f ∧
          ∃ cf, Pre.FS.lookup fs f = some cf ∧ Pre.SrcLine.incl q ∈ cf := by
  induction t with
  | nil =>
    intro l f q
    constructor
    · rintro ⟨hm, cf, hlk, hch⟩
      exact ⟨hm, cf, hlk, hch⟩
    · rintro ⟨hm, cf, hlk, hmem⟩
      exact ⟨hm, cf, hlk, hmem⟩
  | cons g t ih =>
    intro l f q
    constructor
    · rintro ⟨hg, cg, hlkg, hch⟩
      obtain ⟨h1, cf, hlkf, hmem⟩ := (ih cg f q).mp hch
      exact ⟨⟨hg, cg, hlkg, h1⟩, cf, hlkf, hmem⟩
    · rintro ⟨⟨hg, cg, hlkg, h1⟩, cf, hlkf, hmem⟩
      exact ⟨hg, cg, hlkg, (ih cg f q).mpr ⟨h1, cf, hlkf, hmem⟩⟩

/-- One file's occurrence count is bounded by the global count. -/
theorem count_le_total (fs : Pre.FS) :
    ∀ (f : String) (cf : List Pre.SrcLine) (q : String), (f, cf) ∈ fs →
      cf.count (Pre.SrcLine.incl q) ≤ Pre.totalCount fs q := by
  induction fs with
  | nil =>
    intro f cf q hm
    cases hm
  | cons e rest ih =>
    intro f cf q hm
    have hsplit : Pre.totalCount (e :: rest) q =
        e.2.count (Pre.SrcLine.incl q) + Pre.totalCount rest q := by
      simp [Pre.totalCount]
    rcases List.mem_cons.mp hm with rfl | hm2
    · have hce : ((f, cf) : String × List Pre.SrcLine).2 = cf := rfl
      rw [hce] at hsplit
      omega
    · have := ih f cf q hm2
      omega

/-- Occurrence counts of two distinct files add up below the global count. -/
theorem two_count_le_total (fs : Pre.FS) :
    ∀ (f g : String) (cf cg : List Pre.SrcLine) (q : String),
      (f, cf) ∈ fs → (g, cg) ∈ fs → f ≠ g →
      cf.count (Pre.SrcLine.incl q) + cg.count (Pre.SrcLine.incl q) ≤
        Pre.totalCount fs q := by
  induction fs with
  | nil =>
    intro f g cf cg q hf
    cases hf
  | cons e rest ih =>
    intro f g cf cg q hf hg hne
    have hsplit : Pre.totalCount (e :: rest) q =
        e.2.count (Pre.SrcLine.incl q) + Pre.totalCount rest q := by
      simp [Pre.totalCount]
    rcases List.mem_cons.mp hf with rfl | hf2
    · have hce : ((f, cf) : String × List Pre.SrcLine).2 = cf := rfl
      rw [hce] at hsplit
      rcases List.mem_cons.mp hg with heg | hg2
      · exact absurd (congrArg Prod.fst heg.symm) hne
      · have := count_le_total rest g cg q hg2
        omega
    · rcases List.mem_cons.mp hg with rfl | hg2
      · have hce : ((g, cg) : String × List Pre.SrcLine).2 = cg := rfl
        rw [hce] at hsplit
        have := count_le_total rest f cf q hf2
        omega
      · have := ih f g cf cg q hf2 hg2 hne
        omega

/-- The global count of target `q` counts its occurrences in `allTargets`. -/
theorem totalCount_eq_count_allTargets (fs : Pre.FS) (q : String) :
    Pre.totalCount fs q = (Pre.allTargets fs).count q := by
  induction fs with
  | nil => rfl
  | cons e rest ih =>
    have h1 : Pre.allTargets (e :: rest) =
        (e.2.filterMap (fun line =>
          match line with
          | .incl p => some p
          | .text _ => none)) ++ Pre.allTargets rest := by
      simp [Pre.allTargets]
    have h2 : ∀ l : List Pre.SrcLine, l.count (Pre.SrcLine.incl q) =
        (l.filterMap (fun line =>
          match line with
          | .incl p => some p
          | .text _ => none)).count q := by
      intro l
      induction l with
      | nil => rfl
      | cons a l2 ih2 =>
        cases a with
        | incl p =>
          by_cases hpq : p = q
          · subst hpq
            simp [List.count_cons, ih2]
          · have : Pre.SrcLine.incl p ≠ Pre.SrcLine.incl q := by
              intro hc
              injection hc with hc2
              exact hpq hc2
            simp [List.count_cons, ih2, this, hpq]
        | text s =>
          simp [List.count_cons, ih2]
    rw [h1, List.count_append]
    simp only [Pre.totalCount, List.map_cons, List.sum_cons]
    rw [h2 e.2]
    simp only [Pre.totalCount] at ih
    omega

/-- Global uniqueness of include targets bounds every global count by one. -/
theorem unique_totalCount (fs : Pre.FS) (hu : Pre.uniqueTargets fs) (q : String) :
    Pre.totalCount fs q ≤ 1 := by
  rw [totalCount_eq_count_allTargets]
  exact List.nodup_iff_count_le_one.mp hu q

/-- Under acyclicity and unique include targets, the path included at the
head of a file's suffix is not reachable again from the remaining lines. -/
theorem no_second_touch (fs : Pre.FS)
    (hga : ∀ q cq, Pre.FS.lookup fs q = some cq → ¬ Pre.Touches fs cq q)
    (hgu : ∀ q, Pre.totalCount fs q ≤ 1)
    (cur : String) (ccur : List Pre.SrcLine) (hcur : Pre.FS.lookup fs cur = some ccur)
    (p : String) (rest : List Pre.SrcLine)
    (hsfx : (Pre.SrcLine.incl p :: rest) <:+ ccur) :
    ¬ Pre.Touches fs rest p := by
  have hrest : rest <:+ ccur := (List.suffix_cons _ _).trans hsfx
  intro ht
  obtain ⟨ch, hch⟩ := (touches_iff_chain fs rest p).mp ht
  rcases List.eq_nil_or_concat ch with rfl | ⟨t, g, rfl⟩
  · obtain ⟨pre, hpre⟩ := hsfx
    have h2 : 2 ≤ ccur.count (Pre.SrcLine.incl p) := by
      rw [← hpre, List.count_append, List.count_cons]
      have := List.one_le_count_iff.mpr hch
      simp only [beq_self_eq_true, if_true]
      omega
    have hle := count_le_total fs cur ccur p (lookup_mem hcur)
    have := hgu p
    omega
  · rw [List.concat_eq_append] at hch
    obtain ⟨hchain, cg, hlkg, hmem⟩ := (chainP_snoc fs t rest g p).mp hch
    by_cases hgc : g = cur
    · subst hgc
      have htc : Pre.Touches fs rest g := (touches_iff_chain fs rest g).mpr ⟨t, hchain⟩
      exact hga g ccur hcur (touches_suffix fs hrest htc)
    · have hm1 : 1 ≤ cg.count (Pre.SrcLine.incl p) := List.one_le_count_iff.mpr hmem
      have hm2 : 1 ≤ ccur.count (Pre.SrcLine.incl p) :=
        List.one_le_count_iff.mpr (hsfx.subset (List.mem_cons_self _ _))
      have := two_count_le_total fs g cur cg ccur p (lookup_mem hlkg) (lookup_mem hcur) hgc
      have := hgu p
      omega

/-- Under acyclicity and unique include targets, nothing is reachable both
from the content of the file included at the head of a suffix and from the
remaining lines: the expansion subtrees are disjoint. -/
theorem disjoint_touch (fs : Pre.FS)
    (hga : ∀ q cq, Pre.FS.lookup fs q = some cq → ¬ Pre.Touches fs cq q)
    (hgu : ∀ q, Pre.totalCount fs q ≤ 1)
    (cur : String) (ccur : List Pre.SrcLine) (hcur : Pre.FS.lookup fs cur = some ccur)
    (p : String) (cp : List Pre.SrcLine) (hlkp : Pre.FS.lookup fs p = some cp)
    (rest : List Pre.SrcLine)
    (hsfx : (Pre.SrcLine.incl p :: rest) <:+ ccur)
    (hpc : p ≠ cur) :
    ∀ q, Pre.Touches fs cp q → Pre.Touches fs rest q → False := by
  have hrest : rest <:+ ccur := (List.suffix_cons _ _).trans hsfx
  suffices H : ∀ n ch1 ch2 q, ch1.length + ch2.length ≤ n →
      Pre.ChainP fs cp ch1 q → Pre.ChainP fs rest ch2 q → False by
    intro q h1 h2
    obtain ⟨ch1, hc1⟩ := (touches_iff_chain fs cp q).mp h1
    obtain ⟨ch2, hc2⟩ := (touches_iff_chain fs rest q).mp h2
    exact H (ch1.length + ch2.length) ch1 ch2 q le_rfl hc1 hc2
  intro n
  induction n using Nat.strong_induction_on with
  | _ n IH =>
    intro ch1 ch2 q hlen hc1 hc2
    rcases List.eq_nil_or_concat ch1 with rfl | ⟨t1, g, rfl⟩
    · rcases List.eq_nil_or_concat ch2 with rfl | ⟨t2, f, rfl⟩
      · have hm1 : 1 ≤ cp.count (Pre.SrcLine.incl q) := List.one_le_count_iff.mpr hc1
        have hm2 : 1 ≤ ccur.count (Pre.SrcLine.incl q) :=
          List.one_le_count_iff.mpr (hrest.subset hc2)
        have := two_count_le_total fs p cur cp ccur q (lookup_mem hlkp) (lookup_mem hcur) hpc
        have := hgu q
        omega
      · rw [List.concat_eq_append] at hc2
        obtain ⟨hchain, cf, hlkf, hmem⟩ := (chainP_snoc fs t2 rest f q).mp hc2
        by_cases hfp : f = p
        · subst hfp
          exact no_second_touch fs hga hgu cur ccur hcur f rest hsfx
            ((touches_iff_chain fs rest f).mpr ⟨t2, hchain⟩)
        · have hm1 : 1 ≤ cp.count (Pre.SrcLine.incl q) := List.one_le_count_iff.mpr hc1
          have hm2 : 1 ≤ cf.count (Pre.SrcLine.incl q) := List.one_le_count_iff.mpr hmem
          have := two_count_le_total fs p f cp cf q (lookup_mem hlkp) (lookup_mem hlkf)
            (fun he => hfp he.symm)
          have := hgu q
          omega
    · rcases List.eq_nil_or_concat ch2 with rfl | ⟨t2, f, rfl⟩
      · rw [List.concat_eq_append] at hc1
        obtain ⟨hchain, cg, hlkg, hmem⟩ := (chainP_snoc fs t1 cp g q).mp hc1
        by_cases hgc : g = cur
        · subst hgc
          have htc : Pre.Touches fs cp g := (touches_iff_chain fs cp g).mpr ⟨t1, hchain⟩
          have : Pre.Touches fs (Pre.SrcLine.incl p :: rest) g := .deeper hlkp htc
          exact hga g ccur hcur (touches_suffix fs hsfx this)
        · have hm1 : 1 ≤ cg.count (Pre.SrcLine.incl q) := List.one_le_count_iff.mpr hmem
          have hm2 : 1 ≤ ccur.count (Pre.SrcLine.incl q) :=
            List.one_le_count_iff.mpr (hrest.subset hc2)
          have := two_count_le_total fs g cur cg ccur q (lookup_mem hlkg) (lookup_mem hcur) hgc
          have := hgu q
          omega
      · rw [List.concat_eq_append] at hc1 hc2
        obtain ⟨hchain1, cg, hlkg, hmem1⟩ := (chainP_snoc fs t1 cp g q).mp hc1
        obtain ⟨hchain2, cf, hlkf, hmem2⟩ := (chainP_snoc fs t2 rest f q).mp hc2
        by_cases hgf : g = f
        · subst hgf
          have hcgf : cg = cf := by
            rw [hlkg] at hlkf
            exact Option.some.inj hlkf
          subst hcgf
          have hlt : t1.length + t2.length < n := by
            simp only [List.length_concat] at hlen
            omega
          exact IH (t1.length + t2.length) hlt t1 t2 g le_rfl hchain1 hchain2
        · have hm1 : 1 ≤ cg.count (Pre.SrcLine.incl q) := List.one_le_count_iff.mpr hmem1
          have hm2 : 1 ≤ cf.count (Pre.SrcLine.incl q) := List.one_le_count_iff.mpr hmem2
          have := two_count_le_total fs g f cg cf q (lookup_mem hlkg) (lookup_mem hlkf) hgf
          have := hgu q
          omega

/-- Success of the line expansion over a valid, acyclic file system in
which no file is included twice anywhere: the run returns without error,
the visited set grows by exactly the reachable paths, and the dependency
list stays duplicate-free while mirroring the visited set. -/
theorem processLines_success (fs : Pre.FS)
    (hfs : Pre.fsOK fs = true)
    (hga : ∀ q cq, Pre.FS.lookup fs q = some cq → ¬ Pre.Touches fs cq q)
    (hgu : ∀ q, Pre.totalCount fs q ≤ 1) :
    ∀ fuel lines cur ln st ccur,
      Pre.FS.lookup fs cur = some ccur → lines <:+ ccur →
      lines.length + 1 + Pre.pendingWork fs st ≤ fuel →
      st.errorMessage = "" →
      (∀ q, q ∈ st.processedFiles → ¬ Pre.Touches fs lines q) →
      st.dependencies.Nodup →
      (∀ x, x ∈ st.dependencies ↔ x ∈ st.processedFiles) →
      ∃ st' out, Pre.processLines fs fuel lines cur ln st = some (st', out) ∧
        st'.errorMessage = "" ∧
        (∀ x, x ∈ st'.processedFiles ↔ x ∈ st.processedFiles ∨ Pre.Touches fs lines x) ∧
        st'.dependencies.Nodup ∧
        (∀ x, x ∈ st'.dependencies ↔ x ∈ st'.processedFiles) := by
  intro fuel
  induction fuel with
  | zero =>
    intro lines cur ln st ccur _ _ hfuel _ _ _ _
    exact absurd hfuel (by omega)
  | succ fuel ih =>
    intro lines cur ln st ccur hcur hsfx hfuel herr hP2 hnd hmir
    cases lines with
    | nil =>
      refine ⟨st, "", rfl, herr, ?_, hnd, hmir⟩
      intro x
      constructor
      · exact Or.inl
      · rintro (hx | hx)



        · exact hx
        · exact absurd hx (touches_nil fs x)
    | cons l rest =>
      have hsfx2 : rest <:+ ccur := (List.suffix_cons _ _).trans hsfx
      cases l with
      | text s =>
        have hP2r : ∀ q, q ∈ st.processedFiles → ¬ Pre.Touches fs rest q := by
          intro q hq ht
          exact hP2 q hq ((touches_cons_text fs s rest q).mpr ht)
        obtain ⟨st', out, heq, herr2, hchar, hnd2, hmir2⟩ :=
          ih rest cur (ln + 1) st ccur hcur hsfx2
            (by simp only [List.length_cons] at hfuel; omega) herr hP2r hnd hmir
        refine ⟨st', s ++ "\n" ++ out, ?_, herr2, ?_, hnd2, hmir2⟩
        · rw [processLines_cons_text, heq]
          rfl
        · intro x
          rw [hchar x, touches_cons_text]
      | incl p =>
        have hmemc : Pre.SrcLine.incl p ∈ ccur := hsfx.subset (List.mem_cons_self _ _)
        obtain ⟨hpne, c, hlkc, hcne⟩ := linesOK_mem (fsOK_lookup hfs hcur) hmemc
        have hpmemst : p ∉ st.processedFiles := by
          intro hmem
          exact hP2 p hmem (.here p rest)
        have hpcur : p ≠ cur := by
          rintro rfl
          exact hga p ccur hcur (touches_of_mem fs hmemc)
        have hsplitPW := pendingWork_insert fs st p c hlkc hpmemst
          ⟨p :: st.processedFiles, st.dependencies ++ [p], st.errorMessage⟩ rfl
        have hP2c : ∀ q,
            q ∈ (⟨p :: st.processedFiles, st.dependencies ++ [p], st.errorMessage⟩ :
              Pre.PPState).processedFiles →
            ¬ Pre.Touches fs c q := by
          intro q hq ht
          replace hq : q ∈ p :: st.processedFiles := hq
          rcases List.mem_cons.mp hq with rfl | hq2
          · exact hga q c hlkc ht
          · exact hP2 q hq2 (.deeper hlkc ht)
        have hpdep : p ∉ st.dependencies := fun h => hpmemst ((hmir p).mp h)
        have hndc : (⟨p :: st.processedFiles, st.dependencies ++ [p], st.errorMessage⟩ :
              Pre.PPState).dependencies.Nodup := by
          show (st.dependencies ++ [p]).Nodup
          simp [List.nodup_append, hnd, hpdep]
        have hmirc : ∀ x,
            x ∈ (⟨p :: st.processedFiles, st.dependencies ++ [p], st.errorMessage⟩ :
              Pre.PPState).dependencies ↔
            x ∈ (⟨p :: st.processedFiles, st.dependencies ++ [p], st.errorMessage⟩ :
              Pre.PPState).processedFiles := by
          intro x
          show x ∈ st.dependencies ++ [p] ↔ x ∈ p :: st.processedFiles
          simp only [List.mem_append, List.mem_cons, List.not_mem_nil, or_false, hmir x]
          tauto
        obtain ⟨st2, processed, hinner, herr2, hchar2, hnd2, hmir2⟩ :=
          ih c p 1
            ⟨p :: st.processedFiles, st.dependencies ++ [p], st.errorMessage⟩
            c hlkc (List.suffix_refl c)
            (by simp only [List.length_cons] at hfuel; omega)
            herr hP2c hndc hmirc
        have hmono2 : ∀ x,
            x ∈ (⟨p :: st.processedFiles, st.dependencies ++ [p], st.errorMessage⟩ :
              Pre.PPState).processedFiles →
            x ∈ st2.processedFiles := by
          intro x hx
          exact (hchar2 x).mpr (Or.inl hx)
        have hpw2 : Pre.pendingWork fs st2 ≤ Pre.pendingWork fs
            ⟨p :: st.processedFiles, st.dependencies ++ [p], st.errorMessage⟩ :=
          pendingWork_mono fs _ _ hmono2
        have hP2rest : ∀ q, q ∈ st2.processedFiles → ¬ Pre.Touches fs rest q := by
          intro q hq ht
          rcases (hchar2 q).mp hq with hq1 | hq1
          · replace hq1 : q ∈ p :: st.processedFiles := hq1
            rcases List.mem_cons.mp hq1 with rfl | hq2
            · exact no_second_touch fs hga hgu cur ccur hcur q rest hsfx ht
            · exact hP2 q hq2 (.later ht)
          · exact disjoint_touch fs hga hgu cur ccur hcur p c hlkc rest hsfx hpcur q hq1 ht
        obtain ⟨st3, out3, hcont, herr3, hchar3, hnd3, hmir3⟩ :=
          ih rest cur (ln + 1) st2 ccur hcur hsfx2
            (by simp only [List.length_cons] at hfuel; omega)
            herr2 hP2rest hnd2 hmir2
        refine ⟨st3, "// BEGIN INCLUDE: " ++ p ++ "\n" ++ processed ++
          "// END INCLUDE: " ++ p ++ "\n" ++ out3, ?_, herr3, ?_, hnd3, hmir3⟩
        · simp [Pre.processLines, hpne, hlkc, hpmemst, hcne, hinner, herr2, hcont]
        · intro x
          have hiff : (∃ cc, Pre.FS.lookup fs p = some cc ∧ Pre.Touches fs cc x) ↔
              Pre.Touches fs c x := by
            constructor
            · rintro ⟨cc, hlk2, ht⟩
              rw [hlkc] at hlk2
              obtain rfl := Option.some.inj hlk2
              exact ht
            · intro ht
              exact ⟨c, hlkc, ht⟩
          have hmemrec :
              x ∈ (⟨p :: st.processedFiles, st.dependencies ++ [p], st.errorMessage⟩ :
                Pre.PPState).processedFiles ↔
              x = p ∨ x ∈ st.processedFiles := List.mem_cons
          rw [hchar3 x, touches_cons_incl, hchar2 x, hmemrec, hiff]
          tauto

/-! ## Claim C1 — validity, acyclicity and the diamond -/

/-- Nothing is reachable from a single text line. -/
theorem diamond_text_only (s : String) (x : String) :
    ¬ Pre.Touches fsDiamond [Pre.SrcLine.text s] x := by
  intro hx
  rw [touches_cons_text] at hx
  exact touches_nil _ _ hx

/-- From `#include "d.glsl"` followed by text, only `d.glsl` is reachable. -/
theorem diamond_incl_d (s : String) (x : String)
    (hx : Pre.Touches fsDiamond [Pre.SrcLine.incl "d.glsl", Pre.SrcLine.text s] x) :
    x = "d.glsl" := by
  rcases (touches_cons_incl fsDiamond "d.glsl" _ x).mp hx with rfl | ⟨cc, hlk, ht⟩ | hx2
  · rfl
  · rw [show Pre.FS.lookup fsDiamond "d.glsl" = some [Pre.SrcLine.text "d"]
      from by decide] at hlk
    obtain rfl := Option.some.inj hlk
    exact absurd ht (diamond_text_only "d" x)
  · rw [touches_cons_text] at hx2
    exact absurd hx2 (touches_nil _ _)

/-- The main file of the diamond reaches only `b`, `c` and `d`. -/
theorem diamond_main_touches (x : String)
    (hx : Pre.Touches fsDiamond
      [Pre.SrcLine.incl "b.glsl", Pre.SrcLine.incl "c.glsl",
        Pre.SrcLine.text "void main()"] x) :
    x = "b.glsl" ∨ x = "c.glsl" ∨ x = "d.glsl" := by
  rcases (touches_cons_incl fsDiamond "b.glsl" _ x).mp hx with rfl | ⟨cc, hlk, ht⟩ | hx2
  · exact Or.inl rfl
  · rw [show Pre.FS.lookup fsDiamond "b.glsl" =
      some [Pre.SrcLine.incl "d.glsl", Pre.SrcLine.text "b"] from by decide] at hlk
    obtain rfl := Option.some.inj hlk
    exact Or.inr (Or.inr (diamond_incl_d "b" x ht))
  · rcases (touches_cons_incl fsDiamond "c.glsl" _ x).mp hx2 with rfl | ⟨cc, hlk, ht⟩ | hx3
    · exact Or.inr (Or.inl rfl)
    · rw [show Pre.FS.lookup fsDiamond "c.glsl" =
        some [Pre.SrcLine.incl "d.glsl", Pre.SrcLine.text "c"] from by decide] at hlk
      obtain rfl := Option.some.inj hlk
      exact Or.inr (Or.inr (diamond_incl_d "c" x ht))
    · rw [touches_cons_text] at hx3
      exact absurd hx3 (touches_nil _ _)

/-- The diamond is acyclic: no stored file reaches itself. -/
theorem diamond_acyclic : ∀ q cq, Pre.FS.lookup fsDiamond q = some cq →
    ¬ Pre.Touches fsDiamond cq q := by
  intro q cq hlk hx
  by_cases h1 : q = "main.glsl"
  · subst h1
    rw [show Pre.FS.lookup fsDiamond "main.glsl" = some [Pre.SrcLine.incl "b.glsl",
      Pre.SrcLine.incl "c.glsl", Pre.SrcLine.text "void main()"] from by decide] at hlk
    obtain rfl := Option.some.inj hlk
    rcases diamond_main_touches _ hx with h | h | h <;> exact absurd h (by decide)
  · by_cases h2 : q = "b.glsl"
    · subst h2
      rw [show Pre.FS.lookup fsDiamond "b.glsl" =
        some [Pre.SrcLine.incl "d.glsl", Pre.SrcLine.text "b"] from by decide] at hlk
      obtain rfl := Option.some.inj hlk
      exact absurd (diamond_incl_d "b" _ hx) (by decide)
    · by_cases h3 : q = "c.glsl"
      · subst h3
        rw [show Pre.FS.lookup fsDiamond "c.glsl" =
          some [Pre.SrcLine.incl "d.glsl", Pre.SrcLine.text "c"] from by decide] at hlk
        obtain rfl := Option.some.inj hlk
        exact absurd (diamond_incl_d "c" _ hx) (by decide)
      · by_cases h4 : q = "d.glsl"
        · subst h4
          rw [show Pre.FS.lookup fsDiamond "d.glsl" = some [Pre.SrcLine.text "d"]
            from by decide] at hlk
          obtain rfl := Option.some.inj hlk
          exact diamond_text_only "d" _ hx
        · have hnone : Pre.FS.lookup fsDiamond q = none := by
            have e1 : ¬("main.glsl" = q) := fun h => h1 h.symm
            have e2 : ¬("b.glsl" = q) := fun h => h2 h.symm
            have e3 : ¬("c.glsl" = q) := fun h => h3 h.symm
            have e4 : ¬("d.glsl" = q) := fun h => h4 h.symm
            simp [fsDiamond, Pre.FS.lookup, e1, e2, e3, e4]
          rw [hnone] at hlk
          cases hlk

/-- C1 counterexample: the diamond include graph — every file exists and
is non-empty (`fsOK`), no file transitively includes itself (acyclic) —
yet `process` FAILS: the second path to `d.glsl` trips the circular-include
check because the visited-path set is never cleared between siblings (the
`processedFiles_.erase` call in `processRecursive` is commented out), so a
file reached via two distinct non-cyclic paths is not expanded twice as
claimed: the whole pass aborts instead. -/
theorem c1_counterexample :
    Pre.fsOK fsDiamond = true ∧
    (∀ q cq, Pre.FS.lookup fsDiamond q = some cq → ¬ Pre.Touches fsDiamond cq q) ∧
    (Pre.process fsDiamond "main.glsl").success = false ∧
    (Pre.process fsDiamond "main.glsl").errorMessage =
      "Circular include detected: d.glsl (in c.glsl at line 1)" :=
  ⟨by decide, diamond_acyclic, by decide, by decide⟩

/-- C1 (amended): over a valid file system (every include target exists
and is non-empty) that is acyclic (no file transitively includes itself)
and in which no file is the target of two `#include` directives anywhere
(`uniqueTargets` — ruling out both cycles through a path and diamonds),
`process` succeeds and the returned dependency list is duplicate-free and
contains exactly the transitively included files.  Without the uniqueness
hypothesis the conclusion fails: the never-cleared visited set turns the
second occurrence of a shared include into a circular-include error, as
the diamond counterexample shows. -/
theorem c1_amended (fs : Pre.FS) (main : String) (mc : List Pre.SrcLine)
    (hfs : Pre.fsOK fs = true)
    (hga : ∀ q cq, Pre.FS.lookup fs q = some cq → ¬ Pre.Touches fs cq q)
    (hu : Pre.uniqueTargets fs)
    (hmc : Pre.FS.lookup fs main = some mc) :
    (Pre.process fs main).success = true ∧
      (Pre.process fs main).dependencies.Nodup ∧
      (∀ x, x ∈ (Pre.process fs main).dependencies ↔ Pre.Touches fs mc x) := by
  have hgu : ∀ q, Pre.totalCount fs q ≤ 1 := fun q => unique_totalCount fs hu q
  obtain ⟨st', out, heq, herr2, hchar, hnd2, hmir2⟩ :=
    processLines_success fs hfs hga hgu (Pre.fuelFor fs mc) mc main 1 Pre.initPP mc
      hmc (List.suffix_refl mc) (Nat.le_refl _) rfl
      (fun q hq => absurd hq (List.not_mem_nil q))
      List.nodup_nil (fun x => Iff.rfl)
  have hres : Pre.process fs main =
      { success := true, source := out, dependencies := st'.dependencies } := by
    simp [Pre.process, hmc, heq, herr2]
  rw [hres]
  refine ⟨rfl, hnd2, fun x => ?_⟩
  exact (hmir2 x).trans ((hchar x).trans (by simp [Pre.initPP]))

/-- The two-file chain is acyclic. -/
theorem chain_acyclic : ∀ q cq, Pre.FS.lookup fsChainW q = some cq →
    ¬ Pre.Touches fsChainW cq q := by
  intro q cq hlk hx
  by_cases h1 : q = "main.glsl"
  · subst h1
    rw [show Pre.FS.lookup fsChainW "main.glsl" = some [Pre.SrcLine.incl "b.glsl"]
      from by decide] at hlk
    obtain rfl := Option.some.inj hlk
    rcases (touches_cons_incl fsChainW "b.glsl" [] "main.glsl").mp hx with
      h | ⟨cc, hlk2, ht⟩ | hx2
    · exact absurd h (by decide)
    · rw [show Pre.FS.lookup fsChainW "b.glsl" = some [Pre.SrcLine.text "b"]
        from by decide] at hlk2
      obtain rfl := Option.some.inj hlk2
      rw [touches_cons_text] at ht
      exact touches_nil _ _ ht
    · exact touches_nil _ _ hx2
  · by_cases h2 : q = "b.glsl"
    · subst h2
      rw [show Pre.FS.lookup fsChainW "b.glsl" = some [Pre.SrcLine.text "b"]
        from by decide] at hlk
      obtain rfl := Option.some.inj hlk
      rw [touches_cons_text] at hx
      exact touches_nil _ _ hx
    · have hnone : Pre.FS.lookup fsChainW q = none := by
        have e1 : ¬("main.glsl" = q) := fun h => h1 h.symm
        have e2 : ¬("b.glsl" = q) := fun h => h2 h.symm
        simp [fsChainW, Pre.FS.lookup, e1, e2]
      rw [hnone] at hlk
      cases hlk

/-- C1 witness: the two-file chain discharges every hypothesis of the
amended theorem, and its conclusion holds at the included file. -/
theorem c1_witness :
    (Pre.process fsChainW "main.glsl").success = true ∧
      (Pre.process fsChainW "main.glsl").dependencies.Nodup ∧
      ("b.glsl" ∈ (Pre.process fsChainW "main.glsl").dependencies ↔
        Pre.Touches fsChainW [Pre.SrcLine.incl "b.glsl"] "b.glsl") := by
  have h := c1_amended fsChainW "main.glsl" [Pre.SrcLine.incl "b.glsl"]
    (by decide) chain_acyclic (by decide) (by decide)
  exact ⟨h.1, h.2.1, h.2.2 "b.glsl"⟩

/-! ## Claim C4 — cyclic include graphs fail with a circular diagnostic -/

/-- C4: over a valid file system (every include resolves to a non-empty
file), whenever some file `c` that is the main file or reachable from it
includes itself transitively (the include graph contains a cycle),
`process` returns failure with a `Circular include detected` diagnostic;
moreover every fuel at least `fuelFor` makes the expansion return (the
C++ recursion, which this fuel mirrors, terminates). -/
theorem c4_cycle_fails (fs : Pre.FS) (main c : String) (mc cc : List Pre.SrcLine)
    (hfs : Pre.fsOK fs = true)
    (hmc : Pre.FS.lookup fs main = some mc)
    (hreach : c = main ∨ Pre.Touches fs mc c)
    (hcc : Pre.FS.lookup fs c = some cc)
    (hcyc : Pre.Touches fs cc c) :
    (Pre.process fs main).success = false ∧
    (∃ sfx, (Pre.process fs main).errorMessage =
      "Circular include detected: " ++ sfx) ∧
    ∀ fuel, Pre.fuelFor fs mc ≤ fuel →
      (Pre.processLines fs fuel mc main 1 Pre.initPP).isSome = true := by
  have henough : ∀ fuel, Pre.fuelFor fs mc ≤ fuel →
      (Pre.processLines fs fuel mc main 1 Pre.initPP).isSome = true := by
    intro fuel hf
    apply processLines_enough
    unfold Pre.fuelFor at hf
    omega
  obtain ⟨r, hr⟩ := Option.isSome_iff_exists.mp (henough _ (le_refl _))
  obtain ⟨st', out⟩ := r
  by_cases herr : st'.errorMessage = ""
  · exfalso
    rcases hreach with rfl | hreach
    · have hccmc : cc = mc := by
        rw [hmc] at hcc
        exact (Option.some.inj hcc).symm
      subst hccmc
      exact processLines_no_self fs _ _ _ _ _ _ _ hr herr c cc hcyc hcc hcyc
    · exact processLines_no_self fs _ _ _ _ _ _ _ hr herr c cc hreach hcc hcyc
  · have hclass := processLines_errors fs hfs _ mc main 1 Pre.initPP st' out mc hmc
      (List.suffix_refl _) rfl hr
    have hmsg : ∃ sfx, st'.errorMessage = "Circular include detected: " ++ sfx := by
      rcases hclass with h | h
      · exact absurd h herr
      · exact h
    have hproc : Pre.process fs main =
        { success := false, source := "", errorMessage := st'.errorMessage,
          dependencies := [] } := by
      simp only [Pre.process, hmc, hr, ne_eq, herr, not_false_eq_true, if_true]
    rw [hproc]
    exact ⟨rfl, hmsg, henough⟩

/-- C4 witness: the theorem applied at the two-file cycle
`a.glsl includes b.glsl includes a.glsl`, together with the concrete
diagnostic the model computes there. -/
theorem c4_witness :
    (Pre.process fsCycW "a.glsl").success = false ∧
    (∃ sfx, (Pre.process fsCycW "a.glsl").errorMessage =
      "Circular include detected: " ++ sfx) ∧
    (Pre.process fsCycW "a.glsl").errorMessage =
      "Circular include detected: b.glsl (in a.glsl at line 1)" := by
  have h := c4_cycle_fails fsCycW "a.glsl" "a.glsl" [.incl "b.glsl"] [.incl "b.glsl"]
    (by decide) (by decide) (Or.inl rfl) (by decide)
    (Pre.Touches.deeper
      (show Pre.FS.lookup fsCycW "b.glsl" = some [.incl "a.glsl", .text "x"] by decide)
      (Pre.Touches.here "a.glsl" [.text "x"]))
  exact ⟨h.1, h.2.1, by decide⟩

end Kiwi
